import Mathlib

/-!
# Route_Finder: verification of the routing core

Shallow embedding of the routing logic of the repository (RouteFinder1.py,
RouteFinder2.py, RouteFinder3.py).  All three scripts share one core:

* a road graph loaded by osmnx (a directed multigraph whose nodes carry
  coordinates `x`/`y` and whose edges carry the attributes `length`,
  `highway`, `road_condition`, `traffic`);
* a "simple" heuristic (geodesic distance) and an "advanced" heuristic
  (geodesic distance divided by an edge-dependent speed);
* `nx.astar_path(graph, o, d, heuristic=…, weight="length")`;
* a route summary (RouteFinder2.calculate_route) producing distance and
  estimated time.

Numeric values are modelled by `ℚ`; the Python value `float("inf")` is
modelled by `⊤ : WithTop ℚ`.  A Python exception is modelled by `none` of
an `Option` result.  The geodesic distance function of geopy is a
floating-point ellipsoid computation; it enters the embedding as an
abstract parameter `geo` (hypotheses such as nonnegativity are stated
where a claim needs them).
-/

namespace RouteFinder

/-- Cost values: finite rationals or the Python float infinity. -/
abbrev Cost := WithTop ℚ

/-- Attributes of one edge of the osmnx multigraph.  A missing attribute
(Python: key not present in the edge dict) is `none`. -/
structure EdgeAttrs where
  highway : Option String := none
  road_condition : Option String := none
  traffic : Option String := none
  length : Option ℚ := none
deriving DecidableEq, Repr

/-- The road graph: nodes with their `(y, x)` coordinates, and the list of
directed multi-edges in insertion order (osmnx assigns the parallel-edge
keys 0, 1, 2, … in insertion order, so the first list entry for a node
pair is the edge `list(edge_data.values())[0]` / `graph[u][v][0]`). -/
structure Graph where
  nodes : List (Nat × ℚ × ℚ)
  edges : List (Nat × Nat × EdgeAttrs)
deriving DecidableEq, Repr

/-- Coordinate lookup `(graph.nodes[u]["y"], graph.nodes[u]["x"])`;
`none` models the KeyError raised for a missing node. -/
def coordOf (g : Graph) (u : Nat) : Option (ℚ × ℚ) :=
  (g.nodes.find? (fun p => p.1 == u)).map (fun p => p.2)

/-- `graph.get_edge_data(u, v)`: the parallel edges from `u` to `v` in
insertion order; the empty list models the Python result `None`. -/
def getEdgeData (g : Graph) (u v : Nat) : List EdgeAttrs :=
  (g.edges.filter (fun e => e.1 == u && e.2.1 == v)).map (fun e => e.2.2)

/-- `speed_mapping.get(road_type, 40)` with
`{"motorway": 100, "primary": 80, "secondary": 60, "residential": 40}`. -/
def speed_mapping (road_type : String) : ℚ :=
  if road_type = "motorway" then 100
  else if road_type = "primary" then 80
  else if road_type = "secondary" then 60
  else if road_type = "residential" then 40
  else 40

/-- `{"good": 1.0, "average": 0.8, "poor": 0.5}.get(road_condition, 1.0)`. -/
def condition_factor (c : String) : ℚ :=
  if c = "good" then 1
  else if c = "average" then 8/10
  else if c = "poor" then 5/10
  else 1

/-- `{"low": 1.0, "medium": 0.7, "high": 0.4}.get(traffic, 1.0)`. -/
def traffic_factor (t : String) : ℚ :=
  if t = "low" then 1
  else if t = "medium" then 7/10
  else if t = "high" then 4/10
  else 1

/-- The per-edge speed in m/s computed by the advanced heuristic:
`base_speed_mps * condition_factor * traffic_factor`, with the source's
defaults for missing attributes. -/
def edgeSpeedMps (e : EdgeAttrs) : ℚ :=
  (speed_mapping (e.highway.getD "residential") * 1000 / 3600)
    * condition_factor (e.road_condition.getD "good")
    * traffic_factor (e.traffic.getD "low")

/-- The abstract geodesic distance function (geopy `geodesic(…).meters`). -/
abbrev Geo := ℚ × ℚ → ℚ × ℚ → ℚ

/-- RouteFinder3.advanced_heuristic (lines 38–88; textually the same
computation as RouteFinder1.advanced_heuristic and as the body of
RouteFinder2.heuristic): geodesic distance between the two nodes,
divided by the speed derived from the attributes of the first edge
directly joining them; `float("inf")` when no such edge exists or the
speed is not positive.  `none` models the uncaught KeyError raised when a
node id is absent from the graph. -/
def advanced_heuristic (geo : Geo) (g : Graph) (u v : Nat) : Option Cost :=
  match coordOf g u, coordOf g v with
  | some cu, some cv =>
    match getEdgeData g u v with
    | [] => some ⊤
    | e :: _ =>
      some (if 0 < edgeSpeedMps e then ((geo cu cv / edgeSpeedMps e : ℚ) : Cost) else ⊤)
  | _, _ => none

/-- RouteFinder2.heuristic (lines 20–72): the same computation wrapped in
`try: … except: return float("inf")`, so every internal failure becomes
`float("inf")`. -/
def heuristic_RF2 (geo : Geo) (g : Graph) (u v : Nat) : Cost :=
  match advanced_heuristic geo g u v with
  | some c => c
  | none => ⊤

/-- RouteFinder3.simple_heuristic / RouteFinder1.simple_heuristic:
plain geodesic distance in meters. -/
def simple_heuristic (geo : Geo) (g : Graph) (u v : Nat) : Option ℚ :=
  match coordOf g u, coordOf g v with
  | some cu, some cv => some (geo cu cv)
  | _, _ => none

/-- The model-wide maximum speed: 100 km/h converted to m/s (the largest
value of `speed_mapping` with both factors at 1.0). -/
def maxSpeedMps : ℚ := 100 * 1000 / 3600

/-- Modelled from the spec: the Advanced CostModel's `edgeCost` of §4.2,
`time = length / speed_mps` with the base/condition/traffic speed formula
and cost `+∞` when `speed_mps ≤ 0`.  No function of the source computes
this length-based time (the searches accumulate the raw `length`
attribute; the heuristics divide the geodesic distance, not the length),
so the definition follows the spec's words; the speed formula itself is
`edgeSpeedMps`, taken verbatim from the source. -/
def advancedEdgeCost (e : EdgeAttrs) : Cost :=
  if 0 < edgeSpeedMps e then ((e.length.getD 0 / edgeSpeedMps e : ℚ) : Cost) else ⊤

/-- Modelled from the spec: the corrected Advanced heuristic of §4.2,
`GeoDistance(u,v)` divided by the model-wide maximum speed (100 km/h in
m/s), independent of any edge between `u` and `v`.  The source implements
the edge-dependent variant `advanced_heuristic` instead. -/
def specAdvHeuristic (geo : Geo) (g : Graph) (u v : Nat) : Option ℚ :=
  match coordOf g u, coordOf g v with
  | some cu, some cv => some (geo cu cv / maxSpeedMps)
  | _, _ => none

/-- Cumulative cost of a node sequence under the Advanced cost model
(`advancedEdgeCost` of the first edge of each consecutive pair; a missing
edge is impassable, `+∞`, per the spec's missing-edge policy). -/
def advPathCost (g : Graph) : List Nat → Cost
  | u :: v :: rest =>
    (match getEdgeData g u v with
     | [] => (⊤ : Cost)
     | e :: _ => advancedEdgeCost e) + advPathCost g (v :: rest)
  | _ => 0

/-- RouteFinder2.calculate_route line 223: `route_length`, the sum over
consecutive path pairs of `graph[u][v][0].get("length", 0)` (the
key-0, i.e. first-inserted, parallel edge).  `none` models the KeyError
raised when a consecutive pair has no edge. -/
def routeLengthM (g : Graph) : List Nat → Option ℚ
  | u :: v :: rest => do
    let e ← (getEdgeData g u v).head?
    let tailSum ← routeLengthM g (v :: rest)
    pure (e.length.getD 0 + tailSum)
  | _ => some 0

/-- RouteFinder2.calculate_route lines 228–236: `estimated_time_min`.
Per consecutive pair, the first edge's
`(length/1000) / speed_mapping.get(road_type, 40) * 60` minutes —
the code's own comment calls it "a simplified version of the heuristic":
no condition factor and no traffic factor are applied. -/
def estTimeMin (g : Graph) : List Nat → Option ℚ
  | u :: v :: rest => do
    let e ← (getEdgeData g u v).head?
    let speed_kmh := speed_mapping (e.highway.getD "residential")
    let segment_time_h := e.length.getD 0 / 1000 / speed_kmh
    let tailSum ← estTimeMin g (v :: rest)
    pure (segment_time_h * 60 + tailSum)
  | _ => some 0

/-! ## The A* search of networkx

Both scripts delegate the search to
`nx.astar_path(graph, origin, destination, heuristic=…, weight="length")`.
The embedding below follows the networkx `astar_path` source
(`networkx/algorithms/shortest_paths/astar.py`, current release line):
a lazy-deletion heap of entries `(priority, counter, node, dist, parent)`,
an `enqueued` map holding the best pushed cost and the memoised heuristic
value per node, an `explored` map holding the parent recorded at the
latest expansion, re-expansion of an explored node when its entry is not
stale (`qcost < dist` skips), and path reconstruction by walking
`explored` parents from the popped target entry.

Modelling notes: the heap is a list from which `popMin` removes a
`(priority, counter)`-lexicographic minimum (heap order never reaches the
further tuple components because counters are unique); `dist` is exact
rational arithmetic; the entry carries a ghost field `ghost` (the walk
along which the entry was generated) that influences nothing observable
and exists only for the proofs; the loop takes explicit fuel, and the
`stuck` result marks states a faithful run cannot reach (exhausted fuel,
a failing map lookup, or a non-terminating reconstruction). -/

/-- The networkx weight function for `weight="length"` on a multigraph:
`min(attr.get("length", 1) for attr in d.values())` over the parallel
edges from `u` to `v`.  (Only evaluated on existing neighbor pairs; the
`[]` fallback is arbitrary.) -/
def astarWeight (g : Graph) (u v : Nat) : ℚ :=
  match (getEdgeData g u v).map (fun e => e.length.getD 1) with
  | [] => 0
  | x :: xs => xs.foldl min x

/-- First-occurrence deduplication (Python dict-key order). -/
def dedupFirstAux : List Nat → List Nat → List Nat
  | _, [] => []
  | seen, x :: xs =>
    if x ∈ seen then dedupFirstAux seen xs else x :: dedupFirstAux (x :: seen) xs

def dedupFirst (l : List Nat) : List Nat := dedupFirstAux [] l

/-- All node ids known to the networkx graph object: declared nodes plus
every edge endpoint (networkx adds endpoints as nodes on edge insertion). -/
def universeNodes (g : Graph) : List Nat :=
  dedupFirst (g.nodes.map (fun p => p.1) ++
    g.edges.foldr (fun e acc => e.1 :: e.2.1 :: acc) [])

/-- `G_succ[u].items()`: the out-neighbors of `u`, in first-edge-insertion
order. -/
def successors (g : Graph) (u : Nat) : List Nat :=
  dedupFirst ((g.edges.filter (fun e => e.1 == u)).map (fun e => e.2.1))

/-- There is at least one edge from `u` to `v`. -/
def hasEdge (g : Graph) (u v : Nat) : Prop := getEdgeData g u v ≠ []

/-- A walk from `a` to `b`: a nonempty node list starting at `a`, ending
at `b`, with an edge between each consecutive pair. -/
def IsWalk (g : Graph) (a b : Nat) (W : List Nat) : Prop :=
  W ≠ [] ∧ W.head? = some a ∧ W.getLast? = some b ∧ W.Chain' (hasEdge g)

/-- Total `weight="length"` cost of a node sequence: the sum of
`astarWeight` over consecutive pairs (what the search accumulates). -/
def wWeight (g : Graph) : List Nat → ℚ
  | u :: v :: rest => astarWeight g u v + wWeight g (v :: rest)
  | _ => 0

/-- One heap entry `(priority, counter, node, dist, parent)` of the
networkx search, plus the ghost walk that generated it. -/
structure Entry where
  f : Cost
  cnt : Nat
  node : Nat
  dist : ℚ
  parent : Option Nat
  ghost : List Nat
deriving DecidableEq, Repr

/-- Heap order: lexicographic on `(priority, counter)`. -/
def entryLtB (a b : Entry) : Bool :=
  decide (a.f < b.f) || (decide (a.f = b.f) && decide (a.cnt < b.cnt))

def popMinAux (best : Entry) (pending acc : List Entry) : Entry × List Entry :=
  match pending with
  | [] => (best, acc)
  | e :: rest =>
    if entryLtB e best then popMinAux e rest (best :: acc)
    else popMinAux best rest (e :: acc)

/-- `heappop`: remove a `(priority, counter)`-minimal entry. -/
def popMin : List Entry → Option (Entry × List Entry)
  | [] => none
  | e :: rest => some (popMinAux e rest [])

/-- Insert-or-replace in an association list. -/
def upsert {α : Type} (l : List (Nat × α)) (k : Nat) (v : α) : List (Nat × α) :=
  match l with
  | [] => [(k, v)]
  | (k', v') :: rest => if k' = k then (k, v) :: rest else (k', v') :: upsert rest k v

/-- Search state: the heap, `enqueued` (best pushed cost and memoised
heuristic value per node), `explored` (parent recorded at the latest
expansion, with the ghost distance of that expansion), and the push
counter. -/
structure AState where
  queue : List Entry
  enqueued : List (Nat × ℚ × Cost)
  explored : List (Nat × Option Nat × ℚ)
  cnt : Nat
deriving Repr

/-- Result of the search.  `stuck` is a modelling artifact (see above),
never produced by a faithful run. -/
inductive AResult where
  | found : List Nat → ℚ → AResult
  | noPath : AResult
  | nodeNotFound : AResult
  | stuck : AResult
deriving DecidableEq, Repr

/-- `while node is not None: path.append(node); node = explored[node]`,
accumulating in reverse so no final `path.reverse()` is needed. -/
def reconstruct (explored : List (Nat × Option Nat × ℚ)) :
    Nat → Nat → List Nat → Option (List Nat)
  | 0, _, _ => none
  | fuel + 1, cur, acc =>
    match explored.lookup cur with
    | none => none
    | some (none, _) => some (cur :: acc)
    | some (some p, _) => reconstruct explored fuel p (cur :: acc)

/-- Relax one neighbor `s` of the expanded node `n` (the body of the
`for neighbor, w in G_succ[curnode].items()` loop). -/
def relaxOne (g : Graph) (hf : Nat → Cost) (n : Nat) (dist : ℚ) (gh : List Nat)
    (st : List Entry × List (Nat × ℚ × Cost) × Nat) (s : Nat) :
    List Entry × List (Nat × ℚ × Cost) × Nat :=
  match st.2.1.lookup s with
  | some (qcost, hs) =>
    if qcost ≤ dist + astarWeight g n s then st
    else (⟨((dist + astarWeight g n s : ℚ) : Cost) + hs, st.2.2, s,
        dist + astarWeight g n s, some n, gh ++ [s]⟩ :: st.1,
      upsert st.2.1 s (dist + astarWeight g n s, hs), st.2.2 + 1)
  | none =>
    (⟨((dist + astarWeight g n s : ℚ) : Cost) + hf s, st.2.2, s,
        dist + astarWeight g n s, some n, gh ++ [s]⟩ :: st.1,
      upsert st.2.1 s (dist + astarWeight g n s, hf s), st.2.2 + 1)

def relaxSuccs (g : Graph) (hf : Nat → Cost) (n : Nat) (dist : ℚ) (gh : List Nat)
    (succs : List Nat) (st : List Entry × List (Nat × ℚ × Cost) × Nat) :
    List Entry × List (Nat × ℚ × Cost) × Nat :=
  succs.foldl (relaxOne g hf n dist gh) st

/-- Expand the popped entry `E`: record `explored[curnode] = parent` and
relax all successors. -/
def expandState (g : Graph) (hf : Nat → Cost) (E : Entry) (rest : List Entry)
    (st : AState) : AState :=
  let explored' := upsert st.explored E.node (E.parent, E.dist)
  let r := relaxSuccs g hf E.node E.dist E.ghost (successors g E.node)
    (rest, st.enqueued, st.cnt)
  ⟨r.1, r.2.1, explored', r.2.2⟩

inductive StepOut where
  | done : AResult → StepOut
  | next : AState → StepOut

/-- One iteration of the `while queue:` loop. -/
def astarStep (g : Graph) (hf : Nat → Cost) (target : Nat) (st : AState) : StepOut :=
  match popMin st.queue with
  | none => .done .noPath
  | some (E, rest) =>
    if E.node = target then
      match E.parent with
      | none => .done (.found [E.node] E.dist)
      | some p =>
        match reconstruct st.explored (st.explored.length + 1) p [E.node] with
        | none => .done .stuck
        | some path => .done (.found path E.dist)
    else
      match st.explored.lookup E.node with
      | some (none, _) => .next { st with queue := rest }
      | some (some _, _) =>
        match st.enqueued.lookup E.node with
        | none => .done .stuck
        | some (qcost, _) =>
          if qcost < E.dist then .next { st with queue := rest }
          else .next (expandState g hf E rest st)
      | none => .next (expandState g hf E rest st)

def astarLoop (g : Graph) (hf : Nat → Cost) (target : Nat) :
    Nat → AState → AResult
  | 0, _ => .stuck
  | fuel + 1, st =>
    match astarStep g hf target st with
    | .done r => r
    | .next st' => astarLoop g hf target fuel st'

/-- `queue = [(0, next(c), source, 0, None)]`. -/
def initState (o : Nat) : AState :=
  { queue := [⟨(0 : Cost), 0, o, 0, none, [o]⟩], enqueued := [], explored := [], cnt := 1 }

/-- All walks from `o` whose nodes are pairwise distinct, enumerated by
bounded depth-first search (proof device for the fuel bound). -/
def walksFrom (g : Graph) : Nat → Nat → List Nat → List (List Nat)
  | 0, u, _ => [[u]]
  | fuel + 1, u, avoid =>
    [u] :: (((successors g u).filter (fun v => !((u :: avoid).contains v))).map
      (fun v => (walksFrom g fuel v (u :: avoid)).map (fun W => u :: W))).flatten

/-- Duplicate-free walks from `o`, plus their one-edge extensions back to
`o` (every cost the search can ever record lies on such a walk). -/
def allTWalks (g : Graph) (o : Nat) : List (List Nat) :=
  let sw := walksFrom g (universeNodes g).length o []
  sw ++ (sw.filter (fun W => !(getEdgeData g (W.getLastD o) o).isEmpty)).map
    (fun W => W ++ [o])

/-- Fuel sufficient for any run on nonnegative weights (shown by a
potential-function argument in the no-path theorem below). -/
def fuelBound (g : Graph) (o : Nat) : Nat :=
  (universeNodes g).length * (allTWalks g o).length + 2

/-- `nx.astar_path(graph, o, d, heuristic=hf, weight="length")`, with the
results `found` (the returned path and the dist of the popped target
entry), `noPath` (`NetworkXNoPath`), `nodeNotFound` (`NodeNotFound`,
raised before the loop starts). -/
def nx_astar_path (g : Graph) (hf : Nat → Cost) (o d : Nat) : AResult :=
  if o ∈ universeNodes g ∧ d ∈ universeNodes g then
    astarLoop g hf d (fuelBound g o) (initState o)
  else .nodeNotFound

/-- The heuristic argument of the RouteFinder2 search
(`calculate_route` line 220): `heuristic` with the destination fixed. -/
def advHFun (geo : Geo) (g : Graph) (d : Nat) : Nat → Cost :=
  fun n => heuristic_RF2 geo g n d

/-- The simple heuristic as a search argument (RouteFinder3 line 92,
RouteFinder1 line 86); total on nodes with coordinates. -/
def simpleHFun (geo : Geo) (g : Graph) (d : Nat) : Nat → Cost :=
  fun n =>
    match simple_heuristic geo g n d with
    | some q => (q : Cost)
    | none => ⊤

/-! ## Concrete fixtures used by witnesses and counterexamples -/

/-- A degenerate geodesic function (all distances zero). -/
def geoZero : Geo := fun _ _ => 0

/-- A geodesic function returning a constant 100 m. -/
def geoHundred : Geo := fun _ _ => 100

/-- A three-node chain 1 → 2 → 3, each edge 5 m, all attributes at their
defaults (residential, good, low). -/
def gChain3 : Graph :=
  { nodes := [(1, 0, 0), (2, 0, 1), (3, 0, 2)]
    edges := [(1, 2, { length := some 5 }), (2, 3, { length := some 5 })] }

/-- Two nodes joined by a single 10 m edge with `traffic = "high"`. -/
def gTraffic : Graph :=
  { nodes := [(1, 0, 0), (2, 0, 1)]
    edges := [(1, 2, { length := some 10, traffic := some "high" })] }

/-- Two disconnected nodes (no edges at all). -/
def gDisc : Graph :=
  { nodes := [(1, 0, 0), (2, 0, 1)], edges := [] }

/-- Two nodes, a 5 m edge 1 → 2 and a self-loop at the destination (the
self-loop gives the advanced heuristic a finite, admissible value at the
destination). -/
def gLoop : Graph :=
  { nodes := [(1, 0, 0), (2, 0, 1)]
    edges := [(1, 2, { length := some 5 }), (2, 2, { length := some 1 })] }

/-- `gTraffic` with a second, different parallel edge appended after the
first-inserted one. -/
def gTraffic2 : Graph :=
  { nodes := [(1, 0, 0), (2, 0, 1)]
    edges := [(1, 2, { length := some 10, traffic := some "high" }),
      (1, 2, { length := some 70, highway := some "motorway" })] }

/-- Consecutive pairs of a path (`zip(path[:-1], path[1:])`). -/
def pairsOf : List Nat → List (Nat × Nat)
  | u :: v :: rest => (u, v) :: pairsOf (v :: rest)
  | _ => []

/-- Overwrite the `road_condition` and `traffic` attributes of every edge
(used to state that the route summary does not depend on them). -/
def withFactors (g : Graph) (c t : Option String) : Graph :=
  { nodes := g.nodes
    edges := g.edges.map (fun e =>
      (e.1, e.2.1,
        { highway := e.2.2.highway, road_condition := c, traffic := t,
          length := e.2.2.length })) }

/-- The summary's per-edge time in minutes, written as one formula:
`(length/1000) / base_speed_kmh * 60` (base road-class speed only). -/
def baseTimeMin (e : EdgeAttrs) : ℚ :=
  e.length.getD 0 / 1000 / speed_mapping (e.highway.getD "residential") * 60

/-- The length the summary reads for one pair (key-0 edge, default 0). -/
def firstEdgeLen (g : Graph) (u v : Nat) : ℚ :=
  ((getEdgeData g u v).head?).elim 0 (fun e => e.length.getD 0)

/-- The time the summary computes for one pair (key-0 edge). -/
def firstEdgeTimeMin (g : Graph) (u v : Nat) : ℚ :=
  ((getEdgeData g u v).head?).elim 0 baseTimeMin

/-- A queue entry is honest: its ghost field is a walk from the origin to
its node whose `weight="length"` cost is exactly its `dist`. -/
def EntryGhost (g : Graph) (o : Nat) (E : Entry) : Prop :=
  IsWalk g o E.node E.ghost ∧ wWeight g E.ghost = E.dist

/-! ### Proof devices for the termination (no-path) argument

None of the following definitions comes from the source; they form the
potential function showing that the search loop halts within `fuelBound`
steps when all edge lengths are nonnegative. -/

/-- Every edge length the weight function can produce is nonnegative
(data model §3: `length` is meters ≥ 0; the networkx default is 1). -/
def NonnegLengths (g : Graph) : Prop :=
  ∀ e ∈ g.edges, 0 ≤ e.2.2.length.getD 1

/-- Ghost walks have this shape: they start at the origin, their other
nodes are pairwise distinct, and the origin reappears at most as the
final node. -/
def GhostShape (o : Nat) (W : List Nat) : Prop :=
  ∃ rest, W = o :: rest ∧ rest.Nodup ∧ o ∉ rest.dropLast

/-- The possible `enqueued` values at node `m`: weights of the enumerated
walks from the origin ending at `m`. -/
def WValuesF (g : Graph) (o m : Nat) : Finset ℚ :=
  (((allTWalks g o).filter (fun W => W.getLast? == some m)).map (wWeight g)).toFinset

/-- Potential of one node: how many enumerated-walk weights lie strictly
below the node's current `enqueued` value (all of them if unset). -/
def phiNode (g : Graph) (o : Nat) (enq : List (Nat × ℚ × Cost)) (m : Nat) : Nat :=
  match enq.lookup m with
  | none => (WValuesF g o m).card
  | some (e, _) => ((WValuesF g o m).filter (fun w => w < e)).card

/-- Total potential over all known nodes. -/
def phiTotal (g : Graph) (o : Nat) (enq : List (Nat × ℚ × Cost)) : Nat :=
  ((universeNodes g).map (phiNode g o enq)).sum

/-- The loop measure: potential plus queue length; it strictly decreases
at every iteration. -/
def measureOf (g : Graph) (o : Nat) (st : AState) : Nat :=
  phiTotal g o st.enqueued + st.queue.length

/-- `enq'` dominates `enq`: every recorded best cost stays recorded with
an equal or smaller value (relaxation only improves `enqueued`). -/
def EnqLe (enq' enq : List (Nat × ℚ × Cost)) : Prop :=
  ∀ y e hv, enq.lookup y = some (e, hv) → ∃ e' hv', enq'.lookup y = some (e', hv') ∧ e' ≤ e

/-- Invariant of a single queue entry used by the termination argument. -/
structure EntryOKT (g : Graph) (o : Nat) (enq : List (Nat × ℚ × Cost)) (E : Entry) : Prop where
  ghost_walk : IsWalk g o E.node E.ghost
  ghost_wt : wWeight g E.ghost = E.dist
  shape : GhostShape o E.ghost
  init_form : E.parent = none → E.node = o ∧ E.dist = 0 ∧ E.ghost = [o]
  enq_le : E.parent ≠ none → ∃ e hv, enq.lookup E.node = some (e, hv) ∧ e ≤ E.dist
  closed_pre : ∀ W1 y W2, E.ghost = W1 ++ y :: W2 → W1 ≠ [] → W2 ≠ [] →
    ∃ e hv, enq.lookup y = some (e, hv) ∧ e ≤ wWeight g (W1 ++ [y])

/-- State invariant of the termination argument. -/
structure InvT (g : Graph) (o : Nat) (st : AState) : Prop where
  entries : ∀ E ∈ st.queue, EntryOKT g o st.enqueued E
  exp_enq : ∀ q p phi, st.explored.lookup q = some (some p, phi) →
    (st.enqueued.lookup q).isSome
  origin_par : ∀ par phi, st.explored.lookup o = some (par, phi) → par = none
  origin_exp : ∀ E ∈ st.queue, E.parent ≠ none → (st.explored.lookup o).isSome

/-! ### Proof devices for the optimality (equal-cost) argument -/

/-- The heuristic never overestimates: at every node it is at most the
`weight="length"` cost of every walk from that node to the target. -/
def Admissible (g : Graph) (d : Nat) (hf : Nat → Cost) : Prop :=
  ∀ n W, IsWalk g n d W → hf n ≤ ((wWeight g W : ℚ) : Cost)

/-- Invariant of a single queue entry used by the optimality argument:
nonnegative dist, the initial entry's special form, the priority's form,
and domination by the memoised best cost. -/
structure EntryOpt (o : Nat) (hf : Nat → Cost)
    (enq : List (Nat × ℚ × Cost)) (E : Entry) : Prop where
  dist_nonneg : 0 ≤ E.dist
  init_form : E.parent = none → E.node = o ∧ E.dist = 0
  f_form : (E.f = 0 ∧ E.dist = 0) ∨ E.f = ((E.dist : ℚ) : Cost) + hf E.node
  enq_le : E.parent ≠ none → ∃ e h, enq.lookup E.node = some (e, h) ∧ e ≤ E.dist

/-- State invariant of the optimality argument for target `d`. -/
structure InvO (g : Graph) (o d : Nat) (hf : Nat → Cost) (st : AState) : Prop where
  entries : ∀ E ∈ st.queue, EntryOpt o hf st.enqueued E
  enq_h : ∀ q e h, st.enqueued.lookup q = some (e, h) → h = hf q ∧ 0 ≤ e
  enq_reach : ∀ q e h, st.enqueued.lookup q = some (e, h) →
    (∃ E ∈ st.queue, E.node = q ∧ E.dist = e) ∨
      ∃ p phi, st.explored.lookup q = some (p, phi) ∧ phi ≤ e
  tgt_unexp : st.explored.lookup d = none
  exp_relax : ∀ q p phi, st.explored.lookup q = some (p, phi) →
    ∀ s ∈ successors g q, ∃ e h, st.enqueued.lookup s = some (e, h) ∧
      e ≤ phi + astarWeight g q s
  expl_o : ∀ p phi, st.explored.lookup o = some (p, phi) → p = none ∧ phi = 0
  expl_none : ∀ q phi, st.explored.lookup q = some (none, phi) → q = o
  origin_exp : ∀ E ∈ st.queue, E.parent ≠ none → (st.explored.lookup o).isSome
  main : (∃ E ∈ st.queue, E.node = o ∧ E.dist ≤ 0) ∨
    (∃ p phi, st.explored.lookup o = some (p, phi) ∧ phi ≤ 0) ∨
      ∃ e h, st.enqueued.lookup o = some (e, h) ∧ e ≤ 0

/-! ## Elementary lemmas about the cost model -/

theorem speed_mapping_pos (s : String) : 0 < speed_mapping s := by
  unfold speed_mapping; split_ifs <;> norm_num

theorem speed_mapping_le (s : String) : speed_mapping s ≤ 100 := by
  unfold speed_mapping; split_ifs <;> norm_num

theorem condition_factor_pos (s : String) : 0 < condition_factor s := by
  unfold condition_factor; split_ifs <;> norm_num

theorem condition_factor_le (s : String) : condition_factor s ≤ 1 := by
  unfold condition_factor; split_ifs <;> norm_num

theorem traffic_factor_pos (s : String) : 0 < traffic_factor s := by
  unfold traffic_factor; split_ifs <;> norm_num

theorem traffic_factor_le (s : String) : traffic_factor s ≤ 1 := by
  unfold traffic_factor; split_ifs <;> norm_num

/-- The advanced per-edge speed is always strictly positive (every entry
of every factor table is positive), … -/
theorem edgeSpeedMps_pos (e : EdgeAttrs) : 0 < edgeSpeedMps e := by
  unfold edgeSpeedMps
  have h1 := speed_mapping_pos (e.highway.getD "residential")
  have h2 := condition_factor_pos (e.road_condition.getD "good")
  have h3 := traffic_factor_pos (e.traffic.getD "low")
  positivity

/-- … and never exceeds 100 km/h in m/s. -/
theorem edgeSpeedMps_le (e : EdgeAttrs) : edgeSpeedMps e ≤ maxSpeedMps := by
  unfold edgeSpeedMps maxSpeedMps
  set m := speed_mapping (e.highway.getD "residential") with hm
  set c := condition_factor (e.road_condition.getD "good") with hc
  set t := traffic_factor (e.traffic.getD "low") with ht
  have b1 : 0 < m := speed_mapping_pos _
  have b2 : m ≤ 100 := speed_mapping_le _
  have c1 : 0 < c := condition_factor_pos _
  have c2 : c ≤ 1 := condition_factor_le _
  have t1 : 0 < t := traffic_factor_pos _
  have t2 : t ≤ 1 := traffic_factor_le _
  have y0 : 0 < m * 1000 / 3600 := by positivity
  have step1 : m * 1000 / 3600 * c * t ≤ m * 1000 / 3600 * c := by
    calc m * 1000 / 3600 * c * t ≤ m * 1000 / 3600 * c * 1 :=
          mul_le_mul_of_nonneg_left t2 (by positivity)
      _ = m * 1000 / 3600 * c := by ring
  have step2 : m * 1000 / 3600 * c ≤ m * 1000 / 3600 := by
    calc m * 1000 / 3600 * c ≤ m * 1000 / 3600 * 1 :=
          mul_le_mul_of_nonneg_left c2 (le_of_lt y0)
      _ = m * 1000 / 3600 := by ring
  have step3 : m * 1000 / 3600 ≤ 100 * 1000 / 3600 := by linarith
  linarith

/-! ## Heap and walk lemmas -/

theorem entryLtB_iff (a b : Entry) :
    entryLtB a b = true ↔ (a.f < b.f ∨ (a.f = b.f ∧ a.cnt < b.cnt)) := by
  simp [entryLtB]

theorem entryLtB_asymm {a b : Entry} (h : entryLtB a b = true) : ¬ entryLtB b a = true := by
  rw [entryLtB_iff] at h ⊢
  rcases h with h | ⟨h1, h2⟩
  · rintro (h' | ⟨h1', _⟩)
    · exact absurd h' (not_lt_of_lt h)
    · exact absurd h (h1' ▸ lt_irrefl _)
  · rintro (h' | ⟨_, h2'⟩)
    · exact absurd h' (h1 ▸ lt_irrefl _)
    · omega

theorem entryLtB_trans {a b c : Entry} (h1 : entryLtB a b = true)
    (h2 : entryLtB b c = true) : entryLtB a c = true := by
  rw [entryLtB_iff] at h1 h2 ⊢
  rcases h1 with h1 | ⟨e1, c1⟩ <;> rcases h2 with h2 | ⟨e2, c2⟩
  · exact Or.inl (lt_trans h1 h2)
  · exact Or.inl (e2 ▸ h1)
  · exact Or.inl (e1 ▸ h2)
  · exact Or.inr ⟨e1.trans e2, lt_trans c1 c2⟩

theorem popMinAux_perm :
    ∀ (pending acc : List Entry) (best : Entry),
      List.Perm ((popMinAux best pending acc).1 :: (popMinAux best pending acc).2)
        (best :: (pending ++ acc))
  | [], acc, best => by simp [popMinAux]
  | e :: rest, acc, best => by
    rw [popMinAux]
    split_ifs with h
    · refine List.Perm.trans (popMinAux_perm rest (best :: acc) e) ?_
      refine List.Perm.trans (List.Perm.cons e List.perm_middle) ?_
      exact List.Perm.swap best e _
    · refine List.Perm.trans (popMinAux_perm rest (e :: acc) best) ?_
      exact List.Perm.cons best List.perm_middle

theorem popMin_perm {q : List Entry} {E : Entry} {rest : List Entry}
    (h : popMin q = some (E, rest)) : List.Perm (E :: rest) q := by
  cases q with
  | nil => simp [popMin] at h
  | cons e tail =>
    simp only [popMin, Option.some_inj] at h
    have hp := popMinAux_perm tail [] e
    rw [h] at hp
    simpa using hp

theorem popMin_mem {q : List Entry} {E : Entry} {rest : List Entry}
    (h : popMin q = some (E, rest)) : E ∈ q :=
  (popMin_perm h).mem_iff.mp (List.mem_cons_self _ _)

theorem popMin_rest_subset {q : List Entry} {E : Entry} {rest : List Entry}
    (h : popMin q = some (E, rest)) : ∀ e ∈ rest, e ∈ q :=
  fun e he => (popMin_perm h).mem_iff.mp (List.mem_cons_of_mem _ he)

theorem popMinAux_min :
    ∀ (pending acc : List Entry) (best : Entry),
      (∀ E ∈ acc, ¬ entryLtB E best = true) →
      ∀ E ∈ (popMinAux best pending acc).2, ¬ entryLtB E (popMinAux best pending acc).1 = true
  | [], acc, best, hacc => by simpa [popMinAux] using hacc
  | e :: rest, acc, best, hacc => by
    rw [popMinAux]
    split_ifs with h
    · refine popMinAux_min rest (best :: acc) e ?_
      intro E hE
      rcases List.mem_cons.mp hE with rfl | hE
      · exact entryLtB_asymm h
      · intro hlt
        exact hacc E hE (entryLtB_trans hlt h)
    · refine popMinAux_min rest (e :: acc) best ?_
      intro E hE
      rcases List.mem_cons.mp hE with rfl | hE
      · exact h
      · exact hacc E hE

/-- The popped entry has the minimum priority of the whole queue. -/
theorem popMin_fmin {q : List Entry} {E : Entry} {rest : List Entry}
    (h : popMin q = some (E, rest)) : ∀ e ∈ q, E.f ≤ e.f := by
  intro e he
  rcases List.mem_cons.mp ((popMin_perm h).mem_iff.mpr he) with rfl | hr
  · exact le_refl _
  · cases q with
    | nil => simp [popMin] at h
    | cons e0 tail =>
      simp only [popMin, Option.some_inj] at h
      have hmin := popMinAux_min tail [] e0 (by simp)
      rw [h] at hmin
      have h2 := hmin e hr
      rw [entryLtB_iff] at h2
      push_neg at h2
      exact h2.1

theorem IsWalk_singleton (g : Graph) (a : Nat) : IsWalk g a a [a] :=
  ⟨by simp, rfl, rfl, List.chain'_singleton a⟩

theorem IsWalk.append_one {g : Graph} {o n s : Nat} {W : List Nat}
    (hw : IsWalk g o n W) (he : hasEdge g n s) : IsWalk g o s (W ++ [s]) := by
  obtain ⟨hne, hhead, hlast, hchain⟩ := hw
  refine ⟨by simp, ?_, ?_, ?_⟩
  · rw [List.head?_append, hhead]; rfl
  · simp [List.getLast?_concat]
  · rw [List.chain'_append]
    refine ⟨hchain, List.chain'_singleton s, ?_⟩
    intro x hx y hy
    rw [hlast] at hx
    simp only [Option.mem_def, Option.some_inj, List.head?_cons] at hx hy
    rw [← hx, ← hy]
    exact he

theorem wWeight_append_one (g : Graph) :
    ∀ (W : List Nat) (n s : Nat), W.getLast? = some n →
      wWeight g (W ++ [s]) = wWeight g W + astarWeight g n s
  | [], n, s, h => by simp at h
  | [u], n, s, h => by
    simp only [List.getLast?_singleton, Option.some_inj] at h
    subst h
    simp [wWeight]
  | u :: v :: rest, n, s, h => by
    have h' : (v :: rest).getLast? = some n := by
      rw [List.getLast?_cons_cons] at h
      exact h
    have ih := wWeight_append_one g (v :: rest) n s h'
    have e1 : wWeight g (u :: v :: rest ++ [s]) =
        astarWeight g u v + wWeight g ((v :: rest) ++ [s]) := rfl
    have e2 : wWeight g (u :: v :: rest) =
        astarWeight g u v + wWeight g (v :: rest) := rfl
    rw [e1, ih, e2]
    ring

/-- A successor relation member really has an edge. -/
theorem mem_dedupFirstAux : ∀ (l seen : List Nat) (x : Nat),
    x ∈ dedupFirstAux seen l → x ∈ l
  | [], _, x, h => by simp [dedupFirstAux] at h
  | y :: rest, seen, x, h => by
    rw [dedupFirstAux] at h
    split_ifs at h with hy
    · exact List.mem_cons_of_mem _ (mem_dedupFirstAux rest seen x h)
    · rcases List.mem_cons.mp h with rfl | h
      · exact List.mem_cons_self _ _
      · exact List.mem_cons_of_mem _ (mem_dedupFirstAux rest (y :: seen) x h)

theorem successors_hasEdge {g : Graph} {n s : Nat} (h : s ∈ successors g n) :
    hasEdge g n s := by
  unfold successors at h
  have h' := mem_dedupFirstAux _ _ _ h
  simp only [List.mem_map, List.mem_filter] at h'
  obtain ⟨e, ⟨hmem, hfil⟩, rfl⟩ := h'
  simp only [Bool.and_eq_true, beq_iff_eq] at hfil
  intro hempty
  have hin : e.2.2 ∈ getEdgeData g n e.2.1 := by
    unfold getEdgeData
    rw [List.mem_map]
    refine ⟨e, List.mem_filter.mpr ⟨hmem, ?_⟩, rfl⟩
    simp [hfil]
  rw [hempty] at hin
  simp at hin

/-! ## Ghost soundness: every queue entry's dist is the length of a walk -/

theorem relaxOne_ghost {g : Graph} {hf : Nat → Cost} {o n : Nat} {dist : ℚ}
    {gh : List Nat} {st : List Entry × List (Nat × ℚ × Cost) × Nat} {s : Nat}
    (hst : ∀ E ∈ st.1, EntryGhost g o E)
    (hgh : IsWalk g o n gh ∧ wWeight g gh = dist)
    (hs : hasEdge g n s) :
    ∀ E ∈ (relaxOne g hf n dist gh st s).1, EntryGhost g o E := by
  intro E hE
  unfold relaxOne at hE
  have hlast : gh.getLast? = some n := hgh.1.2.2.1
  have hext : ∀ fv cv, EntryGhost g o
      ⟨fv, cv, s, dist + astarWeight g n s, some n, gh ++ [s]⟩ := by
    intro fv cv
    constructor
    · exact hgh.1.append_one hs
    · rw [wWeight_append_one g gh n s hlast, hgh.2]
  rcases h1 : st.2.1.lookup s with _ | ⟨qcost, hsv⟩ <;> rw [h1] at hE
  · rcases List.mem_cons.mp hE with rfl | hE
    · exact hext _ _
    · exact hst E hE
  · dsimp only at hE
    split_ifs at hE
    · exact hst E hE
    · rcases List.mem_cons.mp hE with rfl | hE
      · exact hext _ _
      · exact hst E hE

theorem relaxSuccs_ghost {g : Graph} {hf : Nat → Cost} {o n : Nat} {dist : ℚ}
    {gh : List Nat}
    (hgh : IsWalk g o n gh ∧ wWeight g gh = dist) :
    ∀ (succs : List Nat) (st : List Entry × List (Nat × ℚ × Cost) × Nat),
      (∀ s ∈ succs, hasEdge g n s) →
      (∀ E ∈ st.1, EntryGhost g o E) →
      ∀ E ∈ (relaxSuccs g hf n dist gh succs st).1, EntryGhost g o E
  | [], st, hsucc, hst => hst
  | s :: rest, st, hsucc, hst => by
    rw [relaxSuccs, List.foldl_cons]
    exact relaxSuccs_ghost hgh rest (relaxOne g hf n dist gh st s)
      (fun x hx => hsucc x (List.mem_cons_of_mem _ hx))
      (relaxOne_ghost hst hgh (hsucc s (List.mem_cons_self _ _)))

theorem expandState_ghost {g : Graph} {hf : Nat → Cost} {o : Nat} {E : Entry}
    {rest : List Entry} {st : AState}
    (hrest : ∀ e ∈ rest, EntryGhost g o e)
    (hE : EntryGhost g o E) :
    ∀ e ∈ (expandState g hf E rest st).queue, EntryGhost g o e := by
  intro e he
  unfold expandState at he
  exact relaxSuccs_ghost ⟨hE.1, hE.2⟩ (successors g E.node) (rest, st.enqueued, st.cnt)
    (fun s hs => successors_hasEdge hs) hrest e he

theorem astarStep_found {g : Graph} {hf : Nat → Cost} {target : Nat} {st : AState}
    {p : List Nat} {c : ℚ}
    (hstep : astarStep g hf target st = .done (.found p c)) :
    ∃ E rest, popMin st.queue = some (E, rest) ∧ E.node = target ∧ E.dist = c := by
  unfold astarStep at hstep
  rcases hpop : popMin st.queue with _ | ⟨E, rest⟩ <;> rw [hpop] at hstep
  · simp at hstep
  · dsimp only at hstep
    refine ⟨E, rest, rfl, ?_⟩
    by_cases htgt : E.node = target
    · rw [if_pos htgt] at hstep
      rcases hpar : E.parent with _ | par <;> rw [hpar] at hstep <;> dsimp only at hstep
      · simp only [StepOut.done.injEq, AResult.found.injEq] at hstep
        exact ⟨htgt, hstep.2⟩
      · rcases hrec : reconstruct st.explored (st.explored.length + 1) par [E.node] with
          _ | path <;> rw [hrec] at hstep <;> dsimp only at hstep
        · simp at hstep
        · simp only [StepOut.done.injEq, AResult.found.injEq] at hstep
          exact ⟨htgt, hstep.2⟩
    · rw [if_neg htgt] at hstep
      rcases h2 : st.explored.lookup E.node with _ | ⟨par, phi⟩ <;> rw [h2] at hstep
      · simp at hstep
      · rcases par with _ | p
        · simp at hstep
        · rcases h3 : st.enqueued.lookup E.node with _ | ⟨qcost, hv⟩ <;> rw [h3] at hstep
          · simp at hstep
          · dsimp only at hstep
            split_ifs at hstep <;> simp at hstep

theorem astarStep_next {g : Graph} {hf : Nat → Cost} {target : Nat} {st st' : AState}
    (hstep : astarStep g hf target st = .next st') :
    ∃ E rest, popMin st.queue = some (E, rest) ∧
      (st' = { st with queue := rest } ∨ st' = expandState g hf E rest st) := by
  unfold astarStep at hstep
  rcases hpop : popMin st.queue with _ | ⟨E, rest⟩ <;> rw [hpop] at hstep
  · simp at hstep
  · dsimp only at hstep
    refine ⟨E, rest, rfl, ?_⟩
    by_cases htgt : E.node = target
    · rw [if_pos htgt] at hstep
      rcases hpar : E.parent with _ | par <;> rw [hpar] at hstep <;> dsimp only at hstep
      · simp at hstep
      · rcases hrec : reconstruct st.explored (st.explored.length + 1) par [E.node] with
          _ | path <;> rw [hrec] at hstep <;> simp at hstep
    · rw [if_neg htgt] at hstep
      rcases h2 : st.explored.lookup E.node with _ | ⟨par, phi⟩ <;> rw [h2] at hstep
      · simp only [StepOut.next.injEq] at hstep
        exact Or.inr hstep.symm
      · rcases par with _ | p
        · simp only [StepOut.next.injEq] at hstep
          exact Or.inl hstep.symm
        · rcases h3 : st.enqueued.lookup E.node with _ | ⟨qcost, hv⟩ <;> rw [h3] at hstep
          · simp at hstep
          · dsimp only at hstep
            split_ifs at hstep <;> simp only [StepOut.next.injEq] at hstep
            · exact Or.inl hstep.symm
            · exact Or.inr hstep.symm

/-- If the loop returns `found p c` from a state whose queue entries are
all honest, then `c` is the `weight="length"` cost of an actual walk from
the origin to the destination. -/
theorem astarLoop_found_walk (g : Graph) (hf : Nat → Cost) (o target : Nat) :
    ∀ (fuel : Nat) (st : AState), (∀ E ∈ st.queue, EntryGhost g o E) →
      ∀ (p : List Nat) (c : ℚ), astarLoop g hf target fuel st = .found p c →
        ∃ W, IsWalk g o target W ∧ wWeight g W = c
  | 0, st, hinv, p, c, h => by simp [astarLoop] at h
  | fuel + 1, st, hinv, p, c, h => by
    rw [astarLoop] at h
    rcases hstep : astarStep g hf target st with r | st' <;> rw [hstep] at h
    · subst h
      obtain ⟨E, rest, hpop, htgt, hdist⟩ := astarStep_found hstep
      have hE := hinv E (popMin_mem hpop)
      exact ⟨E.ghost, htgt ▸ hE.1, hdist ▸ hE.2⟩
    · obtain ⟨E, rest, hpop, hcase⟩ := astarStep_next hstep
      have hrest : ∀ e ∈ rest, EntryGhost g o e :=
        fun e he => hinv e (popMin_rest_subset hpop e he)
      rcases hcase with rfl | rfl
      · exact astarLoop_found_walk g hf o target fuel _ hrest p c h
      · exact astarLoop_found_walk g hf o target fuel _
          (expandState_ghost hrest (hinv E (popMin_mem hpop))) p c h

/-! ## Association list and enumeration lemmas -/

theorem lookup_cons_eqk {α : Type} {a k : Nat} (h : a = k) (v : α) (l : List (Nat × α)) :
    ((a, v) :: l).lookup k = some v := by
  simp only [List.lookup]
  rw [show (k == a) = true from beq_iff_eq.mpr h.symm]

theorem lookup_cons_nek {α : Type} {a k : Nat} (h : a ≠ k) (v : α) (l : List (Nat × α)) :
    ((a, v) :: l).lookup k = l.lookup k := by
  simp only [List.lookup]
  rw [show (k == a) = false from beq_eq_false_iff_ne.mpr (fun hh => h hh.symm)]

theorem lookup_upsert_self {α : Type} :
    ∀ (l : List (Nat × α)) (k : Nat) (v : α), (upsert l k v).lookup k = some v
  | [], k, v => lookup_cons_eqk rfl v []
  | (k', v') :: rest, k, v => by
    rw [upsert]
    split_ifs with h
    · exact lookup_cons_eqk rfl v rest
    · rw [lookup_cons_nek h v' (upsert rest k v)]
      exact lookup_upsert_self rest k v

theorem lookup_upsert_ne {α : Type} :
    ∀ (l : List (Nat × α)) (k k' : Nat) (v : α), k' ≠ k →
      (upsert l k v).lookup k' = l.lookup k'
  | [], k, k', v, h => by
    rw [show upsert ([] : List (Nat × α)) k v = [(k, v)] from rfl,
      lookup_cons_nek (fun hh => h hh.symm) v []]
  | (k0, v0) :: rest, k, k', v, h => by
    rw [upsert]
    split_ifs with h0
    · subst h0
      rw [lookup_cons_nek (fun hh => h hh.symm) v rest,
        lookup_cons_nek (fun hh => h hh.symm) v0 rest]
    · by_cases hk : k0 = k'
      · rw [lookup_cons_eqk hk v0 (upsert rest k v), lookup_cons_eqk hk v0 rest]
      · rw [lookup_cons_nek hk v0 (upsert rest k v), lookup_cons_nek hk v0 rest]
        exact lookup_upsert_ne rest k k' v h

theorem mem_dedupFirstAux_iff :
    ∀ (l seen : List Nat) (x : Nat), x ∈ dedupFirstAux seen l ↔ (x ∈ l ∧ x ∉ seen)
  | [], seen, x => by simp [dedupFirstAux]
  | y :: rest, seen, x => by
    rw [dedupFirstAux]
    split_ifs with hy
    · rw [mem_dedupFirstAux_iff rest seen x]
      constructor
      · rintro ⟨h1, h2⟩
        exact ⟨List.mem_cons_of_mem _ h1, h2⟩
      · rintro ⟨h1, h2⟩
        rcases List.mem_cons.mp h1 with rfl | h1
        · exact absurd hy h2
        · exact ⟨h1, h2⟩
    · constructor
      · intro h
        rcases List.mem_cons.mp h with rfl | h
        · exact ⟨List.mem_cons_self _ _, hy⟩
        · rw [mem_dedupFirstAux_iff rest (y :: seen) x] at h
          refine ⟨List.mem_cons_of_mem _ h.1, ?_⟩
          intro hx
          exact h.2 (List.mem_cons_of_mem _ hx)
      · rintro ⟨h1, h2⟩
        rcases List.mem_cons.mp h1 with rfl | h1
        · exact List.mem_cons_self _ _
        · by_cases hxy : x = y
          · subst hxy
            exact List.mem_cons_self _ _
          · refine List.mem_cons_of_mem _ ?_
            rw [mem_dedupFirstAux_iff rest (y :: seen) x]
            refine ⟨h1, ?_⟩
            intro hx
            rcases List.mem_cons.mp hx with h | h
            · exact hxy h
            · exact h2 h

theorem nodup_dedupFirstAux :
    ∀ (l seen : List Nat), (dedupFirstAux seen l).Nodup
  | [], seen => by simp [dedupFirstAux]
  | y :: rest, seen => by
    rw [dedupFirstAux]
    split_ifs with hy
    · exact nodup_dedupFirstAux rest seen
    · refine List.Nodup.cons ?_ (nodup_dedupFirstAux rest (y :: seen))
      intro hmem
      rw [mem_dedupFirstAux_iff] at hmem
      exact hmem.2 (List.mem_cons_self _ _)

theorem mem_dedupFirst_iff (l : List Nat) (x : Nat) : x ∈ dedupFirst l ↔ x ∈ l := by
  unfold dedupFirst
  rw [mem_dedupFirstAux_iff]
  simp

theorem nodup_dedupFirst (l : List Nat) : (dedupFirst l).Nodup :=
  nodup_dedupFirstAux l []

theorem nodup_universeNodes (g : Graph) : (universeNodes g).Nodup :=
  nodup_dedupFirst _

theorem mem_universe_of_endpoint {g : Graph} {e : Nat × Nat × EdgeAttrs}
    (he : e ∈ g.edges) : e.1 ∈ universeNodes g ∧ e.2.1 ∈ universeNodes g := by
  have hfold : ∀ (l : List (Nat × Nat × EdgeAttrs)) (x : Nat × Nat × EdgeAttrs), x ∈ l →
      x.1 ∈ l.foldr (fun e acc => e.1 :: e.2.1 :: acc) [] ∧
      x.2.1 ∈ l.foldr (fun e acc => e.1 :: e.2.1 :: acc) [] := by
    intro l
    induction l with
    | nil => intro x hx; simp at hx
    | cons y rest ih =>
      intro x hx
      rcases List.mem_cons.mp hx with rfl | hx
      · simp
      · have := ih x hx
        constructor
        · exact List.mem_cons_of_mem _ (List.mem_cons_of_mem _ this.1)
        · exact List.mem_cons_of_mem _ (List.mem_cons_of_mem _ this.2)
  unfold universeNodes
  rw [mem_dedupFirst_iff, mem_dedupFirst_iff]
  have h := hfold g.edges e he
  exact ⟨List.mem_append.mpr (Or.inr h.1), List.mem_append.mpr (Or.inr h.2)⟩

theorem mem_getEdgeData {g : Graph} {u v : Nat} {a : EdgeAttrs}
    (h : a ∈ getEdgeData g u v) : (u, v, a) ∈ g.edges := by
  unfold getEdgeData at h
  rw [List.mem_map] at h
  obtain ⟨e, hmem, rfl⟩ := h
  have hf := (List.mem_filter.mp hmem).2
  simp only [Bool.and_eq_true, beq_iff_eq] at hf
  have := List.mem_filter.mp hmem
  obtain ⟨e1, e2, e3⟩ := e
  simp only at hf
  rw [hf.1, hf.2] at this
  exact this.1

theorem hasEdge_endpoints {g : Graph} {u v : Nat} (h : hasEdge g u v) :
    u ∈ universeNodes g ∧ v ∈ universeNodes g := by
  unfold hasEdge at h
  rcases hne : getEdgeData g u v with _ | ⟨a, rest⟩
  · exact absurd hne h
  · have := mem_getEdgeData (g := g) (u := u) (v := v) (a := a) (by rw [hne]; simp)
    exact mem_universe_of_endpoint this

theorem hasEdge_iff_successor {g : Graph} {n s : Nat} :
    s ∈ successors g n ↔ hasEdge g n s := by
  constructor
  · exact successors_hasEdge
  · intro h
    rcases hne : getEdgeData g n s with _ | ⟨a, rest⟩
    · exact absurd hne h
    · have hmem := mem_getEdgeData (g := g) (u := n) (v := s) (a := a) (by rw [hne]; simp)
      unfold successors
      rw [mem_dedupFirst_iff, List.mem_map]
      refine ⟨(n, s, a), List.mem_filter.mpr ⟨hmem, by simp⟩, rfl⟩

theorem foldl_min_nonneg {x0 : ℚ} :
    ∀ (xs : List ℚ), 0 ≤ x0 → (∀ x ∈ xs, 0 ≤ x) → 0 ≤ xs.foldl min x0
  | [], h0, _ => h0
  | y :: ys, h0, hall => by
    rw [List.foldl_cons]
    exact foldl_min_nonneg ys (le_min h0 (hall y (List.mem_cons_self _ _)))
      (fun x hx => hall x (List.mem_cons_of_mem _ hx))

theorem astarWeight_nonneg {g : Graph} (hnn : NonnegLengths g) (u v : Nat) :
    0 ≤ astarWeight g u v := by
  unfold astarWeight
  rcases hl : (getEdgeData g u v).map (fun e => e.length.getD 1) with _ | ⟨x, xs⟩ <;>
    rw [hl]
  have hall : ∀ y ∈ x :: xs, 0 ≤ y := by
    intro y hy
    rw [← hl] at hy
    rw [List.mem_map] at hy
    obtain ⟨a, ha, rfl⟩ := hy
    exact hnn _ (mem_getEdgeData ha)
  exact foldl_min_nonneg xs (hall x (List.mem_cons_self _ _))
    (fun y hy => hall y (List.mem_cons_of_mem _ hy))

theorem wWeight_nonneg {g : Graph} (hnn : NonnegLengths g) :
    ∀ W : List Nat, 0 ≤ wWeight g W
  | [] => le_refl 0
  | [_] => le_refl 0
  | u :: v :: rest => by
    have h1 := astarWeight_nonneg hnn u v
    have h2 := wWeight_nonneg hnn (v :: rest)
    rw [wWeight]
    linarith

theorem wWeight_cons_cons (g : Graph) (u v : Nat) (rest : List Nat) :
    wWeight g (u :: v :: rest) = astarWeight g u v + wWeight g (v :: rest) := rfl

/-- Nonnegative weights: a closed prefix weighs no more than the full walk. -/
theorem wWeight_closed_prefix_le {g : Graph} (hnn : NonnegLengths g) :
    ∀ (W1 : List Nat) (y : Nat) (W2 : List Nat),
      wWeight g (W1 ++ [y]) ≤ wWeight g (W1 ++ y :: W2)
  | [], y, W2 => by
    simpa [wWeight] using wWeight_nonneg hnn (y :: W2)
  | [u], y, W2 => by
    have h2 := wWeight_nonneg hnn (y :: W2)
    simp only [List.cons_append, List.nil_append, wWeight_cons_cons]
    have e1 : wWeight g [y] = 0 := rfl
    rw [e1]
    linarith
  | u :: v :: W1, y, W2 => by
    have ih := wWeight_closed_prefix_le hnn (v :: W1) y W2
    simp only [List.cons_append] at ih ⊢
    rw [wWeight_cons_cons, wWeight_cons_cons]
    linarith

/-! ## Enumeration completeness (for the termination potential) -/

/-- Depth-first enumeration completeness: every duplicate-free chain
avoiding `avoid` is produced by `walksFrom` when the fuel covers its
length. -/
theorem walksFrom_complete (g : Graph) :
    ∀ (fuel : Nat) (u : Nat) (avoid : List Nat) (rest : List Nat),
      List.Chain' (hasEdge g) (u :: rest) →
      (u :: rest).Nodup →
      (∀ x ∈ rest, x ∉ avoid) →
      rest.length ≤ fuel →
      (u :: rest) ∈ walksFrom g fuel u avoid
  | 0, u, avoid, rest, _, _, _, hlen => by
    rw [List.length_eq_zero.mp (Nat.le_zero.mp hlen)]
    simp [walksFrom]
  | fuel + 1, u, avoid, [], _, _, _, _ => by
    rw [walksFrom]
    exact List.mem_cons_self _ _
  | fuel + 1, u, avoid, v :: rest, hchain, hnd, havoid, hlen => by
    rw [walksFrom]
    refine List.mem_cons_of_mem _ ?_
    rw [List.mem_flatten]
    refine ⟨(walksFrom g fuel v (u :: avoid)).map (fun W => u :: W), ?_, ?_⟩
    · rw [List.mem_map]
      refine ⟨v, ?_, rfl⟩
      rw [List.mem_filter]
      constructor
      · rw [hasEdge_iff_successor]
        exact (List.chain'_cons.mp hchain).1
      · have h1 : v ≠ u := by
          intro hh
          subst hh
          exact (List.nodup_cons.mp hnd).1 (List.mem_cons_self _ _)
        have h2 : v ∉ avoid := havoid v (List.mem_cons_self _ _)
        simp [h1, h2]
    · rw [List.mem_map]
      refine ⟨v :: rest, ?_, rfl⟩
      refine walksFrom_complete g fuel v (u :: avoid) rest
        (List.chain'_cons.mp hchain).2 (List.nodup_cons.mp hnd).2 ?_
        (by simp only [List.length_cons] at hlen; omega)
      intro x hx hmem
      rcases List.mem_cons.mp hmem with rfl | hmem
      · exact (List.nodup_cons.mp hnd).1 (List.mem_cons_of_mem _ hx)
      · exact havoid x (List.mem_cons_of_mem _ hx) hmem

/-- Every node of a walk whose start lies in the universe lies in the
universe. -/
theorem walk_nodes_universe (g : Graph) :
    ∀ (W : List Nat), List.Chain' (hasEdge g) W →
      (∀ h ∈ W.head?, h ∈ universeNodes g) →
      ∀ x ∈ W, x ∈ universeNodes g
  | [], _, _, x, hx => by simp at hx
  | [u], _, hh, x, hx => by
    rcases List.mem_singleton.mp hx with rfl
    exact hh x rfl
  | u :: v :: rest, hchain, hh, x, hx => by
    have h1 := (List.chain'_cons.mp hchain).1
    rcases List.mem_cons.mp hx with rfl | hx
    · exact hh x rfl
    · refine walk_nodes_universe g (v :: rest) (List.chain'_cons.mp hchain).2 ?_ x hx
      intro h hmem
      simp only [List.head?_cons, Option.mem_def, Option.some_inj] at hmem
      subst hmem
      exact (hasEdge_endpoints h1).2

theorem nodup_length_le_universe {g : Graph} {W : List Nat}
    (hnd : W.Nodup) (hmem : ∀ x ∈ W, x ∈ universeNodes g) :
    W.length ≤ (universeNodes g).length :=
  (hnd.subperm hmem).length_le

theorem allTWalks_eq (g : Graph) (o : Nat) :
    allTWalks g o = walksFrom g (universeNodes g).length o [] ++
      ((walksFrom g (universeNodes g).length o []).filter
        (fun W => !(getEdgeData g (W.getLastD o) o).isEmpty)).map (fun W => W ++ [o]) := rfl

/-- A ghost-shaped walk from the origin is among the enumerated walks. -/
theorem ghost_mem_allTWalks {g : Graph} {o z : Nat} {W : List Nat}
    (ho : o ∈ universeNodes g) (hw : IsWalk g o z W) (hs : GhostShape o W) :
    W ∈ allTWalks g o := by
  obtain ⟨rest, rfl, hnd, hdl⟩ := hs
  obtain ⟨-, hhead, hlast, hchain⟩ := hw
  simp only [List.head?_cons, Option.some_inj] at hhead
  by_cases hor : o ∈ rest
  · -- second form: rest = mid ++ [o], the walk closes back at the origin
    rcases List.eq_nil_or_concat rest with rfl | ⟨mid, a, rfl⟩
    · simp at hor
    · simp only [List.concat_eq_append] at hor hnd hdl hchain ⊢
      have hao : a = o := by
        rcases List.mem_append.mp hor with hmid | ha
        · exact absurd (by simpa [List.dropLast_concat] using hmid) hdl
        · exact (List.mem_singleton.mp ha).symm
      simp only [hao] at hor hnd hdl hchain ⊢
      have hnd2 := List.nodup_append.mp hnd
      have homid : o ∉ mid := by
        intro hm
        exact (hnd2.2.2 hm) (List.mem_singleton.mpr rfl)
      have hchain2 : List.Chain' (hasEdge g) ((o :: mid) ++ [o]) := by
        simpa using hchain
      have hparts := List.chain'_append.mp hchain2
      have hchainP : List.Chain' (hasEdge g) (o :: mid) := hparts.1
      have hedge : hasEdge g ((o :: mid).getLastD o) o := by
        have := hparts.2.2
        have hg : (o :: mid).getLast? = some ((o :: mid).getLastD o) := by
          rw [List.getLastD_eq_getLast?]
          cases hgl : (o :: mid).getLast? with
          | none => simp at hgl
          | some x => rfl
        exact this _ hg o rfl
      have hmemu : ∀ x ∈ o :: mid, x ∈ universeNodes g := by
        refine walk_nodes_universe g (o :: mid) hchainP ?_
        intro h hmem
        simp only [List.head?_cons, Option.mem_def, Option.some_inj] at hmem
        subst hmem
        exact ho
      have hndP : (o :: mid).Nodup := List.nodup_cons.mpr ⟨homid, hnd2.1⟩
      have hlen : mid.length ≤ (universeNodes g).length := by
        have := nodup_length_le_universe hndP hmemu
        simp only [List.length_cons] at this
        omega
      have hP : (o :: mid) ∈ walksFrom g (universeNodes g).length o [] :=
        walksFrom_complete g _ o [] mid hchainP hndP (by simp) hlen
      rw [allTWalks_eq]
      refine List.mem_append.mpr (Or.inr ?_)
      rw [List.mem_map]
      refine ⟨o :: mid, ?_, by simp⟩
      rw [List.mem_filter]
      refine ⟨hP, ?_⟩
      simpa [hasEdge] using hedge
  · -- first form: a duplicate-free walk
    have hndW : (o :: rest).Nodup := List.nodup_cons.mpr ⟨hor, hnd⟩
    have hmemu : ∀ x ∈ o :: rest, x ∈ universeNodes g := by
      refine walk_nodes_universe g (o :: rest) hchain ?_
      intro h hmem
      simp only [List.head?_cons, Option.mem_def, Option.some_inj] at hmem
      subst hmem
      exact ho
    have hlen : rest.length ≤ (universeNodes g).length := by
      have := nodup_length_le_universe hndW hmemu
      simp only [List.length_cons] at this
      omega
    rw [allTWalks_eq]
    exact List.mem_append.mpr (Or.inl
      (walksFrom_complete g _ o [] rest hchain hndW (by simp) hlen))

theorem mem_WValuesF {g : Graph} {o m : Nat} {W : List Nat}
    (hW : W ∈ allTWalks g o) (hlast : W.getLast? = some m) :
    wWeight g W ∈ WValuesF g o m := by
  unfold WValuesF
  rw [List.mem_toFinset, List.mem_map]
  exact ⟨W, List.mem_filter.mpr ⟨hW, by simp [hlast]⟩, rfl⟩

/-! ## Potential-function lemmas -/

theorem phiNode_congr {g : Graph} {o : Nat} {enq enq' : List (Nat × ℚ × Cost)} {m : Nat}
    (h : enq'.lookup m = enq.lookup m) : phiNode g o enq' m = phiNode g o enq m := by
  unfold phiNode
  rw [h]

theorem phiNode_upsert_lt {g : Graph} {o : Nat} {enq : List (Nat × ℚ × Cost)}
    {s : Nat} {ncost : ℚ} {hv : Cost}
    (hmem : ncost ∈ WValuesF g o s)
    (hcase : enq.lookup s = none ∨ ∃ e hv0, enq.lookup s = some (e, hv0) ∧ ncost < e) :
    phiNode g o (upsert enq s (ncost, hv)) s + 1 ≤ phiNode g o enq s := by
  unfold phiNode
  rw [lookup_upsert_self]
  rcases hcase with hc | ⟨e, hv0, hc, hlt⟩ <;> rw [hc]
  · refine Nat.succ_le_of_lt (Finset.card_lt_card ?_)
    rw [Finset.ssubset_iff_of_subset (Finset.filter_subset _ _)]
    exact ⟨ncost, hmem, by simp⟩
  · refine Nat.succ_le_of_lt (Finset.card_lt_card ?_)
    rw [Finset.ssubset_iff_of_subset
      (Finset.monotone_filter_right _ (fun w hw => lt_trans hw hlt))]
    refine ⟨ncost, Finset.mem_filter.mpr ⟨hmem, hlt⟩, ?_⟩
    simp

theorem sum_map_succ_le {l : List Nat} (f f' : Nat → Nat) (s : Nat) :
    l.Nodup → s ∈ l → (∀ x ∈ l, x ≠ s → f' x = f x) → f' s + 1 ≤ f s →
    (l.map f').sum + 1 ≤ (l.map f).sum := by
  induction l with
  | nil => intro _ hs; simp at hs
  | cons a rest ih =>
    intro hnd hs hoth hsx
    rcases List.mem_cons.mp hs with rfl | hs'
    · have hrest : rest.map f' = rest.map f := by
        refine List.map_congr_left ?_
        intro x hx
        refine hoth x (List.mem_cons_of_mem _ hx) ?_
        intro hxa
        subst hxa
        exact (List.nodup_cons.mp hnd).1 hx
      simp only [List.map_cons, List.sum_cons, hrest]
      omega
    · have ha : f' a = f a := by
        refine hoth a (List.mem_cons_self _ _) ?_
        intro haa
        subst haa
        exact (List.nodup_cons.mp hnd).1 hs'
      have hr := ih (List.nodup_cons.mp hnd).2 hs'
        (fun x hx hxs => hoth x (List.mem_cons_of_mem _ hx) hxs) hsx
      simp only [List.map_cons, List.sum_cons, ha]
      omega

theorem phiTotal_upsert_lt {g : Graph} {o : Nat} {enq : List (Nat × ℚ × Cost)}
    {s : Nat} {ncost : ℚ} {hv : Cost}
    (hs : s ∈ universeNodes g)
    (hmem : ncost ∈ WValuesF g o s)
    (hcase : enq.lookup s = none ∨ ∃ e hv0, enq.lookup s = some (e, hv0) ∧ ncost < e) :
    phiTotal g o (upsert enq s (ncost, hv)) + 1 ≤ phiTotal g o enq := by
  unfold phiTotal
  refine sum_map_succ_le _ _ s (nodup_universeNodes g) hs ?_
    (phiNode_upsert_lt hmem hcase)
  intro x _ hxs
  exact phiNode_congr (lookup_upsert_ne enq s x _ hxs)

theorem EnqLe_refl (enq : List (Nat × ℚ × Cost)) : EnqLe enq enq :=
  fun y e hv h => ⟨e, hv, h, le_refl e⟩

theorem EnqLe_trans {e1 e2 e3 : List (Nat × ℚ × Cost)}
    (h12 : EnqLe e1 e2) (h23 : EnqLe e2 e3) : EnqLe e1 e3 := by
  intro y e hv h
  obtain ⟨e', hv', h', hle'⟩ := h23 y e hv h
  obtain ⟨e'', hv'', h'', hle''⟩ := h12 y e' hv' h'
  exact ⟨e'', hv'', h'', le_trans hle'' hle'⟩

theorem EnqLe_isSome {enq' enq : List (Nat × ℚ × Cost)} (h : EnqLe enq' enq) {y : Nat}
    (hy : (enq.lookup y).isSome) : (enq'.lookup y).isSome := by
  rcases hl : enq.lookup y with _ | ⟨e, hv⟩
  · rw [hl] at hy; simp at hy
  · obtain ⟨e', hv', h', -⟩ := h y e hv hl
    rw [h']
    rfl

theorem append_singleton_inj {α : Type} {l m : List α} {x y : α}
    (h : l ++ [x] = m ++ [y]) : l = m ∧ x = y := by
  have h1 : x :: l.reverse = y :: m.reverse := by
    simpa using congrArg List.reverse h
  have h2 := List.cons.inj h1
  exact ⟨List.reverse_injective h2.2, h2.1⟩

theorem mem_dropLast_or_getLast {α : Type} {l : List α} {x : α} (h : x ∈ l) :
    x ∈ l.dropLast ∨ l.getLast? = some x := by
  have hne : l ≠ [] := by rintro rfl; simp at h
  have hsplit := List.dropLast_append_getLast hne
  rw [← hsplit] at h
  rcases List.mem_append.mp h with h1 | h1
  · exact Or.inl h1
  · right
    rw [List.getLast?_eq_getLast_of_ne_nil hne]
    exact congrArg some (List.mem_singleton.mp h1).symm

theorem origin_not_in_rest {o : Nat} {rest : List Nat}
    (hdl : o ∉ rest.dropLast)
    (hform : (o :: rest).getLast? = some o → (o :: rest) = [o]) :
    o ∉ rest := by
  intro hmem
  rcases mem_dropLast_or_getLast hmem with h1 | h1
  · exact hdl h1
  · rcases rest with _ | ⟨r, rest'⟩
    · simp at hmem
    · have h2 : (o :: r :: rest').getLast? = some o := by
        rw [List.getLast?_cons_cons]
        exact h1
      have h3 := hform h2
      simp at h3

/-- A pushed neighbor never revisits the interior of the expanded entry's
ghost walk: the closed-prefix bound would contradict the push guard. -/
theorem push_no_revisit {g : Graph} {o n s : Nat} {dist : ℚ} {rest : List Nat}
    {enq : List (Nat × ℚ × Cost)}
    (hnn : NonnegLengths g)
    (hwlast : (o :: rest).getLast? = some n)
    (hwt : wWeight g (o :: rest) = dist)
    (hc : (o :: rest) = [o] ∨ ∃ e hv, enq.lookup n = some (e, hv) ∧ e ≤ dist)
    (hd : ∀ W1 y W2, (o :: rest) = W1 ++ y :: W2 → W1 ≠ [] → W2 ≠ [] →
        ∃ e hv, enq.lookup y = some (e, hv) ∧ e ≤ wWeight g (W1 ++ [y]))
    (hguard : enq.lookup s = none ∨
      ∃ e hv0, enq.lookup s = some (e, hv0) ∧ dist + astarWeight g n s < e) :
    s ∉ rest := by
  intro hmem
  have hw0 : 0 ≤ astarWeight g n s := astarWeight_nonneg hnn n s
  have hbound : ∃ e hv, enq.lookup s = some (e, hv) ∧ e ≤ dist := by
    rcases mem_dropLast_or_getLast hmem with h1 | h1
    · -- interior occurrence
      obtain ⟨X, Y, hXY⟩ := List.append_of_mem h1
      have hrne : rest ≠ [] := by rintro rfl; simp at hmem
      obtain ⟨lst, hlst⟩ : ∃ a, rest.getLast? = some a :=
        ⟨rest.getLast hrne, List.getLast?_eq_getLast_of_ne_nil hrne⟩
      have hsplit := List.dropLast_append_getLast? lst hlst
      rw [hXY] at hsplit
      have hdec : (o :: rest) = (o :: X) ++ s :: (Y ++ [lst]) := by
        rw [← hsplit]
        simp
      obtain ⟨e, hv, hl, hle⟩ := hd (o :: X) s (Y ++ [lst]) hdec
        (by simp) (by simp)
      refine ⟨e, hv, hl, le_trans hle ?_⟩
      calc wWeight g ((o :: X) ++ [s])
          ≤ wWeight g ((o :: X) ++ s :: (Y ++ [lst])) :=
            wWeight_closed_prefix_le hnn (o :: X) s (Y ++ [lst])
        _ = dist := by rw [← hdec, hwt]
    · -- s is the last node, i.e. the expanded node itself
      have hrne : rest ≠ [] := by rintro rfl; simp at hmem
      have hsn : s = n := by
        rcases rest with _ | ⟨r, rest'⟩
        · simp at hmem
        · rw [List.getLast?_cons_cons] at hwlast
          rw [hwlast] at h1
          exact (Option.some_inj.mp h1).symm
      subst hsn
      rcases hc with hco | hb
      · have hre : rest = [] := (List.cons.inj hco).2
        subst hre
        simp at hmem
      · exact hb
  obtain ⟨e, hv, hl, hle⟩ := hbound
  rcases hguard with hg | ⟨e2, hv2, hg, hlt⟩
  · rw [hl] at hg
    simp at hg
  · rw [hl] at hg
    obtain ⟨he, -⟩ := Prod.mk.inj (Option.some_inj.mp hg)
    rw [← he] at hlt
    linarith

theorem ghost_extend_shape {o s : Nat} {rest : List Nat}
    (hnd : rest.Nodup) (hdl : o ∉ rest.dropLast)
    (hform : (o :: rest).getLast? = some o → (o :: rest) = [o])
    (hs_notin : s ∉ rest) :
    GhostShape o ((o :: rest) ++ [s]) := by
  have hA : o ∉ rest := origin_not_in_rest hdl hform
  refine ⟨rest ++ [s], by simp, ?_, ?_⟩
  · rw [List.nodup_append]
    refine ⟨hnd, List.nodup_singleton s, ?_⟩
    intro x hx hxs
    rw [List.mem_singleton] at hxs
    subst hxs
    exact hs_notin hx
  · rw [List.dropLast_concat]
    exact hA

theorem EntryOKT_mono {g : Graph} {o : Nat} {enq enq' : List (Nat × ℚ × Cost)} {E : Entry}
    (hle : EnqLe enq' enq) (h : EntryOKT g o enq E) : EntryOKT g o enq' E := by
  refine ⟨h.ghost_walk, h.ghost_wt, h.shape, h.init_form, ?_, ?_⟩
  · intro hp
    obtain ⟨e, hv, hl, hle2⟩ := h.enq_le hp
    obtain ⟨e', hv', hl', hle'⟩ := hle _ e hv hl
    exact ⟨e', hv', hl', le_trans hle' hle2⟩
  · intro W1 y W2 hdec h1 h2
    obtain ⟨e, hv, hl, hle2⟩ := h.closed_pre W1 y W2 hdec h1 h2
    obtain ⟨e', hv', hl', hle'⟩ := hle _ e hv hl
    exact ⟨e', hv', hl', le_trans hle' hle2⟩

/-! ## Branch analyses of one loop iteration -/

/-- Exact branch analysis of a `.next` outcome: the popped entry is either
dropped (already explored as the origin, or a strictly better cost is
enqueued) or expanded (not yet explored, or re-expanded because its dist
matches the best enqueued cost). -/
theorem astarStep_next_cases {g : Graph} {hf : Nat → Cost} {target : Nat} {st st' : AState}
    (hstep : astarStep g hf target st = .next st') :
    ∃ E rest, popMin st.queue = some (E, rest) ∧ E.node ≠ target ∧
      ((st' = { st with queue := rest } ∧
          ((∃ phi, st.explored.lookup E.node = some (none, phi)) ∨
            ∃ p phi e hv, st.explored.lookup E.node = some (some p, phi) ∧
              st.enqueued.lookup E.node = some (e, hv) ∧ e < E.dist)) ∨
        (st' = expandState g hf E rest st ∧
          (st.explored.lookup E.node = none ∨
            ∃ p phi e hv, st.explored.lookup E.node = some (some p, phi) ∧
              st.enqueued.lookup E.node = some (e, hv) ∧ E.dist ≤ e))) := by
  unfold astarStep at hstep
  rcases hpop : popMin st.queue with _ | ⟨E, rest⟩ <;> rw [hpop] at hstep
  · simp at hstep
  · dsimp only at hstep
    by_cases htgt : E.node = target
    · rw [if_pos htgt] at hstep
      rcases hpar : E.parent with _ | par <;> rw [hpar] at hstep <;> dsimp only at hstep
      · simp at hstep
      · rcases hrec : reconstruct st.explored (st.explored.length + 1) par [E.node] with
          _ | path <;> rw [hrec] at hstep <;> simp at hstep
    · rw [if_neg htgt] at hstep
      refine ⟨E, rest, rfl, htgt, ?_⟩
      rcases h2 : st.explored.lookup E.node with _ | ⟨par, phi⟩ <;> rw [h2] at hstep
      · simp only [StepOut.next.injEq] at hstep
        exact Or.inr ⟨hstep.symm, Or.inl rfl⟩
      · rcases par with _ | p
        · simp only [StepOut.next.injEq] at hstep
          exact Or.inl ⟨hstep.symm, Or.inl ⟨phi, rfl⟩⟩
        · rcases h3 : st.enqueued.lookup E.node with _ | ⟨qcost, hv⟩ <;> rw [h3] at hstep
          · simp at hstep
          · dsimp only at hstep
            split_ifs at hstep with hq <;> simp only [StepOut.next.injEq] at hstep
            · exact Or.inl ⟨hstep.symm, Or.inr ⟨p, phi, qcost, hv, rfl, rfl, hq⟩⟩
            · exact Or.inr ⟨hstep.symm, Or.inr ⟨p, phi, qcost, hv, rfl, rfl, le_of_not_lt hq⟩⟩

/-- Branch analysis of a `.done` outcome: either the queue was empty
(`noPath`), or the target was popped, or the modelling-artifact `stuck`
arose from an explored node missing from `enqueued`. -/
theorem astarStep_done_char {g : Graph} {hf : Nat → Cost} {target : Nat} {st : AState}
    {r : AResult} (hstep : astarStep g hf target st = .done r) :
    r = .noPath ∨
      ∃ E rest, popMin st.queue = some (E, rest) ∧
        (E.node = target ∨
          ∃ p phi, st.explored.lookup E.node = some (some p, phi) ∧
            st.enqueued.lookup E.node = none) := by
  unfold astarStep at hstep
  rcases hpop : popMin st.queue with _ | ⟨E, rest⟩ <;> rw [hpop] at hstep
  · simp only [StepOut.done.injEq] at hstep
    exact Or.inl hstep.symm
  · dsimp only at hstep
    by_cases htgt : E.node = target
    · exact Or.inr ⟨E, rest, rfl, Or.inl htgt⟩
    · rw [if_neg htgt] at hstep
      rcases h2 : st.explored.lookup E.node with _ | ⟨par, phi⟩ <;> rw [h2] at hstep
      · simp at hstep
      · rcases par with _ | p
        · simp at hstep
        · rcases h3 : st.enqueued.lookup E.node with _ | ⟨qcost, hv⟩ <;> rw [h3] at hstep
          · exact Or.inr ⟨E, rest, rfl, Or.inr ⟨p, phi, h2, h3⟩⟩
          · dsimp only at hstep
            split_ifs at hstep <;> simp at hstep

/-! ## Preservation of the termination invariant -/

/-- Replacing a key with an equal-or-smaller cost only improves
`enqueued`. -/
theorem upsert_enqLe {enq : List (Nat × ℚ × Cost)} {s : Nat} {v : ℚ} {hv : Cost}
    (hg : enq.lookup s = none ∨ ∃ e hv0, enq.lookup s = some (e, hv0) ∧ v ≤ e) :
    EnqLe (upsert enq s (v, hv)) enq := by
  intro y e hvy hy
  by_cases hys : y = s
  · subst hys
    rcases hg with hg | ⟨e0, hv0, hg, hle⟩
    · rw [hg] at hy
      exact absurd hy (by simp)
    · rw [hg] at hy
      obtain ⟨he, -⟩ := Prod.mk.inj (Option.some_inj.mp hy)
      exact ⟨v, hv, lookup_upsert_self enq y (v, hv), he ▸ hle⟩
  · refine ⟨e, hvy, ?_, le_refl e⟩
    rw [lookup_upsert_ne enq s y _ hys]
    exact hy

/-- One relaxation step preserves the entry invariants, only improves
`enqueued`, and never increases the relax-phase measure (a push pays for
its queue slot with a strict potential drop). -/
theorem relaxOne_stepT (g : Graph) (hf : Nat → Cost) {o n : Nat} {dist : ℚ}
    {gh : List Nat} {enq0 : List (Nat × ℚ × Cost)}
    (hnn : NonnegLengths g) (ho : o ∈ universeNodes g)
    (hgw : IsWalk g o n gh) (hgwt : wWeight g gh = dist)
    (hshape : GhostShape o gh)
    (hform : gh.getLast? = some o → gh = [o])
    (hc : gh = [o] ∨ ∃ e hv, enq0.lookup n = some (e, hv) ∧ e ≤ dist)
    (hd : ∀ W1 y W2, gh = W1 ++ y :: W2 → W1 ≠ [] → W2 ≠ [] →
      ∃ e hv, enq0.lookup y = some (e, hv) ∧ e ≤ wWeight g (W1 ++ [y]))
    {st : List Entry × List (Nat × ℚ × Cost) × Nat} {s : Nat}
    (hs : s ∈ successors g n)
    (hent : ∀ E ∈ st.1, EntryOKT g o st.2.1 E)
    (hle : EnqLe st.2.1 enq0) :
    (∀ E ∈ (relaxOne g hf n dist gh st s).1,
        EntryOKT g o (relaxOne g hf n dist gh st s).2.1 E) ∧
      EnqLe (relaxOne g hf n dist gh st s).2.1 enq0 ∧
      phiTotal g o (relaxOne g hf n dist gh st s).2.1 +
          (relaxOne g hf n dist gh st s).1.length ≤
        phiTotal g o st.2.1 + st.1.length := by
  have hwlast : gh.getLast? = some n := hgw.2.2.1
  have hw0 : 0 ≤ astarWeight g n s := astarWeight_nonneg hnn n s
  have key : ∀ hval : Cost,
      (st.2.1.lookup s = none ∨
        ∃ e hv0, st.2.1.lookup s = some (e, hv0) ∧ dist + astarWeight g n s < e) →
      (∀ E ∈ (⟨((dist + astarWeight g n s : ℚ) : Cost) + hval, st.2.2, s,
            dist + astarWeight g n s, some n, gh ++ [s]⟩ :: st.1 : List Entry),
          EntryOKT g o (upsert st.2.1 s (dist + astarWeight g n s, hval)) E) ∧
        EnqLe (upsert st.2.1 s (dist + astarWeight g n s, hval)) enq0 ∧
        phiTotal g o (upsert st.2.1 s (dist + astarWeight g n s, hval)) +
            (st.1.length + 1) ≤ phiTotal g o st.2.1 + st.1.length := by
    intro hval hguard
    obtain ⟨rest0, hghe, hnd0, hdl0⟩ := hshape
    subst hghe
    have hcCur : (o :: rest0) = [o] ∨
        ∃ e hv, st.2.1.lookup n = some (e, hv) ∧ e ≤ dist := by
      rcases hc with h1 | ⟨e, hv, hl1, hle1⟩
      · exact Or.inl h1
      · obtain ⟨e', hv', hl', hle'⟩ := hle n e hv hl1
        exact Or.inr ⟨e', hv', hl', le_trans hle' hle1⟩
    have hdCur : ∀ W1 y W2, (o :: rest0) = W1 ++ y :: W2 → W1 ≠ [] → W2 ≠ [] →
        ∃ e hv, st.2.1.lookup y = some (e, hv) ∧ e ≤ wWeight g (W1 ++ [y]) := by
      intro W1 y W2 hde h1 h2
      obtain ⟨e, hv, hl1, hle1⟩ := hd W1 y W2 hde h1 h2
      obtain ⟨e', hv', hl', hle'⟩ := hle y e hv hl1
      exact ⟨e', hv', hl', le_trans hle' hle1⟩
    have hsnr : s ∉ rest0 := push_no_revisit hnn hwlast hgwt hcCur hdCur hguard
    have hshape2 : GhostShape o ((o :: rest0) ++ [s]) :=
      ghost_extend_shape hnd0 hdl0 hform hsnr
    have hwalk2 : IsWalk g o s ((o :: rest0) ++ [s]) :=
      hgw.append_one (successors_hasEdge hs)
    have hwt2 : wWeight g ((o :: rest0) ++ [s]) = dist + astarWeight g n s := by
      rw [wWeight_append_one g _ n s hwlast, hgwt]
    have hmemW : dist + astarWeight g n s ∈ WValuesF g o s := by
      rw [← hwt2]
      exact mem_WValuesF (ghost_mem_allTWalks ho hwalk2 hshape2)
        (List.getLast?_concat _)
    have hEnq1 : EnqLe (upsert st.2.1 s (dist + astarWeight g n s, hval)) st.2.1 := by
      refine upsert_enqLe ?_
      rcases hguard with h1 | ⟨e, hv0, h1, hlt⟩
      · exact Or.inl h1
      · exact Or.inr ⟨e, hv0, h1, le_of_lt hlt⟩
    have hphi : phiTotal g o (upsert st.2.1 s (dist + astarWeight g n s, hval)) + 1 ≤
        phiTotal g o st.2.1 :=
      phiTotal_upsert_lt (hasEdge_endpoints (successors_hasEdge hs)).2 hmemW hguard
    refine ⟨?_, EnqLe_trans hEnq1 hle, by omega⟩
    intro E hE
    rcases List.mem_cons.mp hE with rfl | hE
    · refine ⟨hwalk2, hwt2, hshape2, ?_, ?_, ?_⟩
      · intro hcontra
        simp at hcontra
      · intro _
        exact ⟨dist + astarWeight g n s, hval, lookup_upsert_self _ _ _, le_refl _⟩
      · intro W1 y W2 hdec h1 h2
        rcases List.eq_nil_or_concat W2 with rfl | ⟨W2p, lst, rfl⟩
        · exact absurd rfl h2
        · simp only [List.concat_eq_append] at hdec
          have hdec2 : (o :: rest0) ++ [s] = (W1 ++ y :: W2p) ++ [lst] := by
            have h5 : (o :: rest0) ++ [s] = W1 ++ y :: (W2p ++ [lst]) := hdec
            rw [h5]
            simp
          obtain ⟨hgh2, hsl⟩ := append_singleton_inj hdec2
          rcases eq_or_ne W2p ([] : List Nat) with rfl | hW2p
          · -- the split point is the expanded node itself
            have hyn : y = n := by
              have hyl : (W1 ++ [y]).getLast? = some n := by
                rw [← hgh2]
                exact hwlast
              rw [List.getLast?_concat] at hyl
              exact Option.some_inj.mp hyl
            rcases hcCur with h1c | ⟨e, hv, hl1, hle1⟩
            · rw [h1c] at hgh2
              rcases W1 with _ | ⟨a, t⟩
              · exact absurd rfl h1
              · simp only [List.cons_append] at hgh2
                have h4 := (List.cons.inj hgh2).2
                exact absurd h4.symm (by simp)
            · have hns2 : y ≠ s := by
                intro hys
                rcases hguard with h1g | ⟨e2, hv2, h1g, hlt⟩
                · rw [← hys, hyn, hl1] at h1g
                  exact Option.noConfusion h1g
                · rw [← hys, hyn, hl1] at h1g
                  have he2 := Prod.mk.inj (Option.some_inj.mp h1g)
                  rw [← he2.1] at hlt
                  linarith
              refine ⟨e, hv, ?_, ?_⟩
              · rw [lookup_upsert_ne st.2.1 s y _ hns2, hyn]
                exact hl1
              · rw [← hgh2, hgwt]
                exact hle1
          · -- the split point is interior to the old ghost walk
            obtain ⟨e, hv, hl1, hle1⟩ := hdCur W1 y W2p hgh2 h1 hW2p
            have hys : y ≠ s := by
              intro hys
              subst hys
              rcases W1 with _ | ⟨a, t⟩
              · exact absurd rfl h1
              · simp only [List.cons_append] at hgh2
                have h4 := (List.cons.inj hgh2).2
                rw [h4] at hsnr
                exact hsnr (by simp)
            refine ⟨e, hv, ?_, hle1⟩
            rw [lookup_upsert_ne st.2.1 s y _ hys]
            exact hl1
    · exact EntryOKT_mono hEnq1 (hent E hE)
  rcases hlk : st.2.1.lookup s with _ | ⟨qcost, hsv⟩
  · have h2 := key (hf s) (Or.inl hlk)
    unfold relaxOne
    rw [hlk]
    dsimp only
    exact ⟨h2.1, h2.2.1, by simpa using h2.2.2⟩
  · unfold relaxOne
    rw [hlk]
    dsimp only
    split_ifs with hqc
    · exact ⟨hent, hle, le_refl _⟩
    · have h2 := key hsv (Or.inr ⟨qcost, hsv, hlk, lt_of_not_le hqc⟩)
      exact ⟨h2.1, h2.2.1, by simpa using h2.2.2⟩

/-- The whole relaxation phase preserves the entry invariants, only
improves `enqueued`, and never increases the relax-phase measure. -/
theorem relaxSuccs_stepT (g : Graph) (hf : Nat → Cost) {o n : Nat} {dist : ℚ}
    {gh : List Nat} {enq0 : List (Nat × ℚ × Cost)}
    (hnn : NonnegLengths g) (ho : o ∈ universeNodes g)
    (hgw : IsWalk g o n gh) (hgwt : wWeight g gh = dist)
    (hshape : GhostShape o gh)
    (hform : gh.getLast? = some o → gh = [o])
    (hc : gh = [o] ∨ ∃ e hv, enq0.lookup n = some (e, hv) ∧ e ≤ dist)
    (hd : ∀ W1 y W2, gh = W1 ++ y :: W2 → W1 ≠ [] → W2 ≠ [] →
      ∃ e hv, enq0.lookup y = some (e, hv) ∧ e ≤ wWeight g (W1 ++ [y])) :
    ∀ (succs : List Nat) (st : List Entry × List (Nat × ℚ × Cost) × Nat),
      (∀ s ∈ succs, s ∈ successors g n) →
      (∀ E ∈ st.1, EntryOKT g o st.2.1 E) →
      EnqLe st.2.1 enq0 →
      (∀ E ∈ (relaxSuccs g hf n dist gh succs st).1,
          EntryOKT g o (relaxSuccs g hf n dist gh succs st).2.1 E) ∧
        EnqLe (relaxSuccs g hf n dist gh succs st).2.1 enq0 ∧
        phiTotal g o (relaxSuccs g hf n dist gh succs st).2.1 +
            (relaxSuccs g hf n dist gh succs st).1.length ≤
          phiTotal g o st.2.1 + st.1.length
  | [], _, _, hent, hle => ⟨hent, hle, le_refl _⟩
  | s :: rest, st, hsucc, hent, hle => by
    have h1 := relaxOne_stepT g hf hnn ho hgw hgwt hshape hform hc hd
      (hsucc s (List.mem_cons_self _ _)) hent hle
    have h2 := relaxSuccs_stepT g hf hnn ho hgw hgwt hshape hform hc hd rest
      (relaxOne g hf n dist gh st s)
      (fun x hx => hsucc x (List.mem_cons_of_mem _ hx)) h1.1 h1.2.1
    exact ⟨h2.1, h2.2.1, le_trans h2.2.2 h1.2.2⟩

/-- Expanding a popped entry preserves the termination invariant and
strictly decreases the measure: the pop frees a queue slot and every push
pays for its new slot with a strict potential drop. -/
theorem expandState_invT {g : Graph} {hf : Nat → Cost} {o : Nat} {st : AState}
    {E : Entry} {rest : List Entry}
    (hnn : NonnegLengths g) (ho : o ∈ universeNodes g)
    (hinv : InvT g o st) (hpop : popMin st.queue = some (E, rest))
    (hEo : E.node = o → E.parent = none) :
    InvT g o (expandState g hf E rest st) ∧
      measureOf g o (expandState g hf E rest st) < measureOf g o st := by
  have hEq := hinv.entries E (popMin_mem hpop)
  have hgw := hEq.ghost_walk
  have hgwt := hEq.ghost_wt
  have hwlast : E.ghost.getLast? = some E.node := hgw.2.2.1
  have hform : E.ghost.getLast? = some o → E.ghost = [o] := by
    intro h
    have hno : E.node = o := by
      rw [hwlast] at h
      exact Option.some_inj.mp h
    exact (hEq.init_form (hEo hno)).2.2
  have hc : E.ghost = [o] ∨
      ∃ e hv, st.enqueued.lookup E.node = some (e, hv) ∧ e ≤ E.dist := by
    rcases hpar : E.parent with _ | p
    · exact Or.inl (hEq.init_form hpar).2.2
    · exact Or.inr (hEq.enq_le (by rw [hpar]; simp))
  have htrip := relaxSuccs_stepT g hf hnn ho hgw hgwt hEq.shape hform hc hEq.closed_pre
    (successors g E.node) (rest, st.enqueued, st.cnt) (fun _ hs => hs)
    (fun e he => hinv.entries e (popMin_rest_subset hpop e he))
    (EnqLe_refl _)
  refine ⟨⟨htrip.1, ?_, ?_, ?_⟩, ?_⟩
  · -- exp_enq
    intro q p phi hq
    by_cases hqn : q = E.node
    · subst hqn
      have hq2 : (upsert st.explored E.node (E.parent, E.dist)).lookup E.node =
          some (some p, phi) := hq
      rw [lookup_upsert_self] at hq2
      have hpar : E.parent = some p := (Prod.mk.inj (Option.some_inj.mp hq2)).1
      obtain ⟨e, hv, hl1, -⟩ := hEq.enq_le (by rw [hpar]; simp)
      exact EnqLe_isSome htrip.2.1 (by rw [hl1]; rfl)
    · have hq2 : (upsert st.explored E.node (E.parent, E.dist)).lookup q =
          some (some p, phi) := hq
      rw [lookup_upsert_ne st.explored E.node q _ hqn] at hq2
      exact EnqLe_isSome htrip.2.1 (hinv.exp_enq q p phi hq2)
  · -- origin_par
    intro par phi hq
    by_cases hno : E.node = o
    · have hq2 : (upsert st.explored E.node (E.parent, E.dist)).lookup o =
        some (par, phi) := hq
      rw [hno, lookup_upsert_self] at hq2
      have hpe : E.parent = par := (Prod.mk.inj (Option.some_inj.mp hq2)).1
      rw [← hpe]
      exact hEo hno
    · have hq2 : (upsert st.explored E.node (E.parent, E.dist)).lookup o =
        some (par, phi) := hq
      rw [lookup_upsert_ne st.explored E.node o _ (fun h => hno h.symm)] at hq2
      exact hinv.origin_par par phi hq2
  · -- origin_exp
    intro E' hE' hp'
    show ((upsert st.explored E.node (E.parent, E.dist)).lookup o).isSome
    rcases hparE : E.parent with _ | p
    · have hno : E.node = o := (hEq.init_form hparE).1
      rw [hno, lookup_upsert_self]
      rfl
    · have hsome := hinv.origin_exp E (popMin_mem hpop) (by rw [hparE]; simp)
      by_cases hno : E.node = o
      · rw [hno, lookup_upsert_self]
        rfl
      · rw [lookup_upsert_ne st.explored E.node o _ (fun h => hno h.symm)]
        exact hsome
  · -- measure
    have hlen : st.queue.length = rest.length + 1 := by
      have h1 := (popMin_perm hpop).length_eq
      simp only [List.length_cons] at h1
      omega
    have hm := htrip.2.2
    have h2 : phiTotal g o (rest, st.enqueued, st.cnt).2.1 +
        (rest, st.enqueued, st.cnt).1.length = phiTotal g o st.enqueued + rest.length := rfl
    rw [h2] at hm
    show phiTotal g o (relaxSuccs g hf E.node E.dist E.ghost (successors g E.node)
        (rest, st.enqueued, st.cnt)).2.1 +
      (relaxSuccs g hf E.node E.dist E.ghost (successors g E.node)
        (rest, st.enqueued, st.cnt)).1.length < phiTotal g o st.enqueued + st.queue.length
    omega

/-- A `.next` iteration preserves the termination invariant and strictly
decreases the measure. -/
theorem astarStep_next_invT {g : Graph} {hf : Nat → Cost} {o target : Nat}
    {st st' : AState}
    (hnn : NonnegLengths g) (ho : o ∈ universeNodes g)
    (hinv : InvT g o st) (hstep : astarStep g hf target st = .next st') :
    InvT g o st' ∧ measureOf g o st' < measureOf g o st := by
  obtain ⟨E, rest, hpop, -, hcase⟩ := astarStep_next_cases hstep
  have hlen : st.queue.length = rest.length + 1 := by
    have h1 := (popMin_perm hpop).length_eq
    simp only [List.length_cons] at h1
    omega
  rcases hcase with ⟨rfl, -⟩ | ⟨rfl, hbr⟩
  · refine ⟨⟨?_, hinv.exp_enq, hinv.origin_par, ?_⟩, ?_⟩
    · exact fun e he => hinv.entries e (popMin_rest_subset hpop e he)
    · exact fun e he hp => hinv.origin_exp e (popMin_rest_subset hpop e he) hp
    · show phiTotal g o st.enqueued + rest.length <
        phiTotal g o st.enqueued + st.queue.length
      omega
  · have hEo : E.node = o → E.parent = none := by
      intro hno
      by_contra hp
      have hsome := hinv.origin_exp E (popMin_mem hpop) hp
      rcases hbr with hnone | ⟨p, phi, e, hv, hexp, -, -⟩
      · rw [hno] at hnone
        rw [hnone] at hsome
        simp at hsome
      · rw [hno] at hexp
        have hcon := hinv.origin_par _ _ hexp
        exact Option.noConfusion hcon
    exact expandState_invT hnn ho hinv hpop hEo

/-- Fuel-indexed termination: under the invariant, with fuel exceeding the
measure and no walk from origin to target, the loop reports `noPath` —
never `stuck`, `found`, or fuel exhaustion. -/
theorem astarLoop_noPath_aux {g : Graph} {hf : Nat → Cost} {o target : Nat}
    (hnn : NonnegLengths g) (ho : o ∈ universeNodes g)
    (hnopath : ∀ W, ¬ IsWalk g o target W) :
    ∀ (fuel : Nat) (st : AState), InvT g o st → measureOf g o st < fuel →
      astarLoop g hf target fuel st = .noPath
  | 0, _, _, hm => absurd hm (Nat.not_lt_zero _)
  | fuel + 1, st, hinv, hm => by
    rw [astarLoop]
    rcases hstep : astarStep g hf target st with r | st'
    · rcases astarStep_done_char hstep with rfl | ⟨E, rest, hpop, hcase⟩
      · rfl
      · rcases hcase with htgt | ⟨p, phi, hexp, henq⟩
        · have hE := hinv.entries E (popMin_mem hpop)
          exact absurd (htgt ▸ hE.ghost_walk) (hnopath E.ghost)
        · have hcon := hinv.exp_enq E.node p phi hexp
          rw [henq] at hcon
          simp at hcon
    · have h2 := astarStep_next_invT hnn ho hinv hstep
      exact astarLoop_noPath_aux hnn ho hnopath fuel st' h2.1 (by omega)

/-- The initial state satisfies the termination invariant. -/
theorem initState_invT (g : Graph) (o : Nat) : InvT g o (initState o) := by
  refine ⟨?_, ?_, ?_, ?_⟩
  · intro E hE
    have hE1 : E = ⟨(0 : Cost), 0, o, 0, none, [o]⟩ := List.mem_singleton.mp hE
    subst hE1
    refine ⟨IsWalk_singleton g o, rfl, ⟨[], rfl, List.nodup_nil, by simp⟩, ?_, ?_, ?_⟩
    · intro _
      exact ⟨rfl, rfl, rfl⟩
    · intro hp
      exact absurd rfl hp
    · intro W1 y W2 hdec h1 h2
      have hlen := congrArg List.length hdec
      rcases W1 with _ | ⟨a, t⟩
      · exact absurd rfl h1
      · rcases W2 with _ | ⟨b, u⟩
        · exact absurd rfl h2
        · simp [List.length_append] at hlen
  · intro q p phi hq
    simp [initState, List.lookup_nil] at hq
  · intro par phi hq
    simp [initState, List.lookup_nil] at hq
  · intro E hE hp
    have hE1 : E = ⟨(0 : Cost), 0, o, 0, none, [o]⟩ := List.mem_singleton.mp hE
    rw [hE1] at hp
    exact absurd rfl hp

/-- Each node contributes at most the number of enumerated walks to the
potential. -/
theorem card_WValuesF_le (g : Graph) (o m : Nat) :
    (WValuesF g o m).card ≤ (allTWalks g o).length := by
  unfold WValuesF
  refine le_trans (List.toFinset_card_le _) ?_
  rw [List.length_map]
  exact List.length_filter_le _ _

/-- The empty `enqueued` map's potential is at most nodes times walks. -/
theorem phiTotal_nil_le (g : Graph) (o : Nat) :
    phiTotal g o [] ≤ (universeNodes g).length * (allTWalks g o).length := by
  unfold phiTotal
  have hb : ∀ x ∈ (universeNodes g).map (phiNode g o []), x ≤ (allTWalks g o).length := by
    intro x hx
    rw [List.mem_map] at hx
    obtain ⟨m, -, rfl⟩ := hx
    unfold phiNode
    rw [List.lookup_nil]
    exact card_WValuesF_le g o m
  have h1 := List.sum_le_card_nsmul ((universeNodes g).map (phiNode g o [])) _ hb
  rwa [List.length_map, smul_eq_mul] at h1

/-- The initial measure is below the fuel bound. -/
theorem measure_init_lt (g : Graph) (o : Nat) :
    measureOf g o (initState o) < fuelBound g o := by
  have h1 := phiTotal_nil_le g o
  show phiTotal g o [] + 1 <
    (universeNodes g).length * (allTWalks g o).length + 2
  exact Nat.lt_succ_of_le (Nat.succ_le_succ h1)

/-! ## Claim C4 (no path: a distinguishable result, no crash, no hang) -/

/-- C4: on every graph with nonnegative edge lengths (data model §3) whose
origin and destination nodes are both present, if no walk connects the
origin to the destination then the search halts within its fuel bound and
returns the distinguishable `noPath` result (`NetworkXNoPath` in the
code, caught by the callers) — for every heuristic function, so in
particular for both the Simple and the Advanced heuristic. -/
theorem C4_no_path (g : Graph) (hf : Nat → Cost) (o d : Nat)
    (hnn : NonnegLengths g) (ho : o ∈ universeNodes g) (hd : d ∈ universeNodes g)
    (hnopath : ∀ W, ¬ IsWalk g o d W) :
    nx_astar_path g hf o d = .noPath := by
  unfold nx_astar_path
  rw [if_pos ⟨ho, hd⟩]
  exact astarLoop_noPath_aux hnn ho hnopath (fuelBound g o) (initState o)
    (initState_invT g o) (measure_init_lt g o)

/-- In the edgeless two-node graph there is no walk from node 1 to
node 2. -/
theorem gDisc_no_walk : ∀ W, ¬ IsWalk gDisc 1 2 W := by
  intro W hW
  obtain ⟨hne, hh, hl, hch⟩ := hW
  rcases W with _ | ⟨a, W1⟩
  · exact hne rfl
  · rcases W1 with _ | ⟨b, W2⟩
    · simp only [List.head?_cons, Option.some_inj] at hh
      simp only [List.getLast?_singleton, Option.some_inj] at hl
      omega
    · exact (List.chain'_cons.mp hch).1 rfl

theorem C4_no_path_witness :
    NonnegLengths gDisc ∧ 1 ∈ universeNodes gDisc ∧ 2 ∈ universeNodes gDisc ∧
      (∀ W, ¬ IsWalk gDisc 1 2 W) ∧
      nx_astar_path gDisc (fun _ => (0 : Cost)) 1 2 = .noPath := by
  have h1 : NonnegLengths gDisc := by
    intro e he
    simp [gDisc] at he
  refine ⟨h1, by decide, by decide, gDisc_no_walk, ?_⟩
  exact C4_no_path gDisc (fun _ => (0 : Cost)) 1 2 h1 (by decide) (by decide) gDisc_no_walk

/-! ## Preservation of the optimality invariant -/

/-- One relaxation step only improves `enqueued`. -/
theorem relaxOne_enqLe (g : Graph) (hf : Nat → Cost) (n : Nat) (dist : ℚ)
    (gh : List Nat) (st : List Entry × List (Nat × ℚ × Cost) × Nat) (s : Nat) :
    EnqLe (relaxOne g hf n dist gh st s).2.1 st.2.1 := by
  rcases hlk : st.2.1.lookup s with _ | ⟨qcost, hsv⟩
  · unfold relaxOne
    rw [hlk]
    dsimp only
    exact upsert_enqLe (Or.inl hlk)
  · unfold relaxOne
    rw [hlk]
    dsimp only
    split_ifs with hqc
    · exact EnqLe_refl _
    · exact upsert_enqLe (Or.inr ⟨qcost, hsv, hlk, le_of_lt (lt_of_not_le hqc)⟩)

/-- The whole relaxation phase only improves `enqueued`. -/
theorem relaxSuccs_enqLe (g : Graph) (hf : Nat → Cost) (n : Nat) (dist : ℚ)
    (gh : List Nat) :
    ∀ (succs : List Nat) (st : List Entry × List (Nat × ℚ × Cost) × Nat),
      EnqLe (relaxSuccs g hf n dist gh succs st).2.1 st.2.1
  | [], _ => EnqLe_refl _
  | s :: rest, st =>
    EnqLe_trans (relaxSuccs_enqLe g hf n dist gh rest (relaxOne g hf n dist gh st s))
      (relaxOne_enqLe g hf n dist gh st s)

/-- After relaxing `s`, the memoised best cost of `s` is at most
`dist + w(n, s)`. -/
theorem relaxOne_bound (g : Graph) (hf : Nat → Cost) (n : Nat) (dist : ℚ)
    (gh : List Nat) (st : List Entry × List (Nat × ℚ × Cost) × Nat) (s : Nat) :
    ∃ e h, (relaxOne g hf n dist gh st s).2.1.lookup s = some (e, h) ∧
      e ≤ dist + astarWeight g n s := by
  rcases hlk : st.2.1.lookup s with _ | ⟨qcost, hsv⟩
  · unfold relaxOne
    rw [hlk]
    dsimp only
    exact ⟨dist + astarWeight g n s, hf s, lookup_upsert_self _ _ _, le_refl _⟩
  · unfold relaxOne
    rw [hlk]
    dsimp only
    split_ifs with hqc
    · exact ⟨qcost, hsv, hlk, hqc⟩
    · exact ⟨dist + astarWeight g n s, hsv, lookup_upsert_self _ _ _, le_refl _⟩

/-- After the whole relaxation phase, every successor's memoised best cost
is at most `dist` plus its edge weight. -/
theorem relaxSuccs_bound (g : Graph) (hf : Nat → Cost) (n : Nat) (dist : ℚ)
    (gh : List Nat) :
    ∀ (succs : List Nat) (st : List Entry × List (Nat × ℚ × Cost) × Nat),
      ∀ s ∈ succs, ∃ e h,
        (relaxSuccs g hf n dist gh succs st).2.1.lookup s = some (e, h) ∧
          e ≤ dist + astarWeight g n s
  | [], _, s, hs => absurd hs (by simp)
  | s0 :: rest, st, s, hs => by
    rcases List.mem_cons.mp hs with rfl | hs2
    · obtain ⟨e, h, hl1, hle1⟩ := relaxOne_bound g hf n dist gh st s
      obtain ⟨e', h', hl', hle'⟩ :=
        relaxSuccs_enqLe g hf n dist gh rest (relaxOne g hf n dist gh st s) s e h hl1
      exact ⟨e', h', hl', le_trans hle' hle1⟩
    · exact relaxSuccs_bound g hf n dist gh rest (relaxOne g hf n dist gh st s0) s hs2

/-- One relaxation step preserves the optimality entry invariants, the
memoised-heuristic invariant, and reachability of every memoised cost;
`X` is the explored map recorded before the relaxation phase. -/
theorem relaxOne_stepO (g : Graph) (hf : Nat → Cost) {o : Nat} (n : Nat) (dist : ℚ)
    (gh : List Nat) (hnn : NonnegLengths g) (hd0 : 0 ≤ dist)
    (X : List (Nat × Option Nat × ℚ))
    (st : List Entry × List (Nat × ℚ × Cost) × Nat) (s : Nat)
    (hent : ∀ E ∈ st.1, EntryOpt o hf st.2.1 E)
    (henh : ∀ q e h, st.2.1.lookup q = some (e, h) → h = hf q ∧ 0 ≤ e)
    (hreach : ∀ q e h, st.2.1.lookup q = some (e, h) →
      (∃ E ∈ st.1, E.node = q ∧ E.dist = e) ∨
        ∃ p phi, X.lookup q = some (p, phi) ∧ phi ≤ e) :
    (∀ E ∈ (relaxOne g hf n dist gh st s).1,
        EntryOpt o hf (relaxOne g hf n dist gh st s).2.1 E) ∧
      (∀ q e h, (relaxOne g hf n dist gh st s).2.1.lookup q = some (e, h) →
        h = hf q ∧ 0 ≤ e) ∧
      (∀ q e h, (relaxOne g hf n dist gh st s).2.1.lookup q = some (e, h) →
        (∃ E ∈ (relaxOne g hf n dist gh st s).1, E.node = q ∧ E.dist = e) ∨
          ∃ p phi, X.lookup q = some (p, phi) ∧ phi ≤ e) ∧
      EnqLe (relaxOne g hf n dist gh st s).2.1 st.2.1 ∧
      (∀ E ∈ st.1, E ∈ (relaxOne g hf n dist gh st s).1) := by
  have hw0 : 0 ≤ astarWeight g n s := astarWeight_nonneg hnn n s
  have key : ∀ hval : Cost, hval = hf s →
      (st.2.1.lookup s = none ∨
        ∃ e hv0, st.2.1.lookup s = some (e, hv0) ∧ dist + astarWeight g n s < e) →
      (∀ E ∈ (⟨((dist + astarWeight g n s : ℚ) : Cost) + hval, st.2.2, s,
            dist + astarWeight g n s, some n, gh ++ [s]⟩ :: st.1 : List Entry),
          EntryOpt o hf (upsert st.2.1 s (dist + astarWeight g n s, hval)) E) ∧
        (∀ q e h,
            (upsert st.2.1 s (dist + astarWeight g n s, hval)).lookup q = some (e, h) →
          h = hf q ∧ 0 ≤ e) ∧
        (∀ q e h,
            (upsert st.2.1 s (dist + astarWeight g n s, hval)).lookup q = some (e, h) →
          (∃ E ∈ (⟨((dist + astarWeight g n s : ℚ) : Cost) + hval, st.2.2, s,
              dist + astarWeight g n s, some n, gh ++ [s]⟩ :: st.1 : List Entry),
            E.node = q ∧ E.dist = e) ∨
            ∃ p phi, X.lookup q = some (p, phi) ∧ phi ≤ e) ∧
        EnqLe (upsert st.2.1 s (dist + astarWeight g n s, hval)) st.2.1 := by
    intro hval hvh hguard
    have hEnq1 : EnqLe (upsert st.2.1 s (dist + astarWeight g n s, hval)) st.2.1 := by
      refine upsert_enqLe ?_
      rcases hguard with h1 | ⟨e, hv0, h1, hlt⟩
      · exact Or.inl h1
      · exact Or.inr ⟨e, hv0, h1, le_of_lt hlt⟩
    refine ⟨?_, ?_, ?_, hEnq1⟩
    · intro E hE
      rcases List.mem_cons.mp hE with rfl | hE
      · refine ⟨?_, ?_, ?_, ?_⟩
        · show (0 : ℚ) ≤ dist + astarWeight g n s
          linarith
        · intro hcon
          simp at hcon
        · exact Or.inr (by rw [hvh])
        · intro _
          exact ⟨dist + astarWeight g n s, hval, lookup_upsert_self _ _ _, le_refl _⟩
      · have hO := hent E hE
        refine ⟨hO.dist_nonneg, hO.init_form, hO.f_form, ?_⟩
        intro hp
        obtain ⟨e, h, hl1, hle1⟩ := hO.enq_le hp
        obtain ⟨e', h', hl', hle'⟩ := hEnq1 _ _ _ hl1
        exact ⟨e', h', hl', le_trans hle' hle1⟩
    · intro q e h hlk
      by_cases hqs : q = s
      · subst hqs
        rw [lookup_upsert_self] at hlk
        have hpair := Prod.mk.inj (Option.some_inj.mp hlk)
        constructor
        · rw [← hpair.2, hvh]
        · rw [← hpair.1]
          linarith
      · rw [lookup_upsert_ne st.2.1 s q _ hqs] at hlk
        exact henh q e h hlk
    · intro q e h hlk
      by_cases hqs : q = s
      · subst hqs
        rw [lookup_upsert_self] at hlk
        have hpair := Prod.mk.inj (Option.some_inj.mp hlk)
        exact Or.inl ⟨_, List.mem_cons_self _ _, rfl, hpair.1⟩
      · rw [lookup_upsert_ne st.2.1 s q _ hqs] at hlk
        rcases hreach q e h hlk with ⟨E2, hq2, hn2, hd2⟩ | h2
        · exact Or.inl ⟨E2, List.mem_cons_of_mem _ hq2, hn2, hd2⟩
        · exact Or.inr h2
  rcases hlk : st.2.1.lookup s with _ | ⟨qcost, hsv⟩
  · have h2 := key (hf s) rfl (Or.inl hlk)
    unfold relaxOne
    rw [hlk]
    dsimp only
    exact ⟨h2.1, h2.2.1, h2.2.2.1, h2.2.2.2, fun E hE => List.mem_cons_of_mem _ hE⟩
  · unfold relaxOne
    rw [hlk]
    dsimp only
    split_ifs with hqc
    · exact ⟨hent, henh, hreach, EnqLe_refl _, fun _ hE => hE⟩
    · have hsvh : hsv = hf s := (henh s qcost hsv hlk).1
      have h2 := key hsv hsvh (Or.inr ⟨qcost, hsv, hlk, lt_of_not_le hqc⟩)
      exact ⟨h2.1, h2.2.1, h2.2.2.1, h2.2.2.2, fun E hE => List.mem_cons_of_mem _ hE⟩

/-- The whole relaxation phase preserves the optimality invariants. -/
theorem relaxSuccs_stepO (g : Graph) (hf : Nat → Cost) {o : Nat} (n : Nat) (dist : ℚ)
    (gh : List Nat) (hnn : NonnegLengths g) (hd0 : 0 ≤ dist)
    (X : List (Nat × Option Nat × ℚ)) :
    ∀ (succs : List Nat) (st : List Entry × List (Nat × ℚ × Cost) × Nat),
      (∀ E ∈ st.1, EntryOpt o hf st.2.1 E) →
      (∀ q e h, st.2.1.lookup q = some (e, h) → h = hf q ∧ 0 ≤ e) →
      (∀ q e h, st.2.1.lookup q = some (e, h) →
        (∃ E ∈ st.1, E.node = q ∧ E.dist = e) ∨
          ∃ p phi, X.lookup q = some (p, phi) ∧ phi ≤ e) →
      (∀ E ∈ (relaxSuccs g hf n dist gh succs st).1,
          EntryOpt o hf (relaxSuccs g hf n dist gh succs st).2.1 E) ∧
        (∀ q e h, (relaxSuccs g hf n dist gh succs st).2.1.lookup q = some (e, h) →
          h = hf q ∧ 0 ≤ e) ∧
        (∀ q e h, (relaxSuccs g hf n dist gh succs st).2.1.lookup q = some (e, h) →
          (∃ E ∈ (relaxSuccs g hf n dist gh succs st).1, E.node = q ∧ E.dist = e) ∨
            ∃ p phi, X.lookup q = some (p, phi) ∧ phi ≤ e) ∧
        EnqLe (relaxSuccs g hf n dist gh succs st).2.1 st.2.1 ∧
        (∀ E ∈ st.1, E ∈ (relaxSuccs g hf n dist gh succs st).1)
  | [], _, hent, henh, hreach => ⟨hent, henh, hreach, EnqLe_refl _, fun _ hE => hE⟩
  | s :: rest, st, hent, henh, hreach => by
    have h1 := relaxOne_stepO g hf n dist gh hnn hd0 X st s hent henh hreach
    have h2 := relaxSuccs_stepO g hf n dist gh hnn hd0 X rest
      (relaxOne g hf n dist gh st s) h1.1 h1.2.1 h1.2.2.1
    exact ⟨h2.1, h2.2.1, h2.2.2.1, EnqLe_trans h2.2.2.2.1 h1.2.2.2.1,
      fun E hE => h2.2.2.2.2 E (h1.2.2.2.2 E hE)⟩

/-- Expanding a popped entry preserves the optimality invariant, given the
gating facts provided by the loop branch: the popped node is not the
target, a node-`o` entry is the initial one, and a re-expansion's dist is
dominated by the memoised best cost. -/
theorem expandState_invO {g : Graph} {hf : Nat → Cost} {o d : Nat} {st : AState}
    {E : Entry} {rest : List Entry}
    (hnn : NonnegLengths g)
    (hinv : InvO g o d hf st) (hpop : popMin st.queue = some (E, rest))
    (hEo : E.node = o → E.parent = none)
    (hnt : E.node ≠ d)
    (hbr2 : ∀ p phi, st.explored.lookup E.node = some (p, phi) →
      ∀ e h, st.enqueued.lookup E.node = some (e, h) → E.dist ≤ e) :
    InvO g o d hf (expandState g hf E rest st) := by
  have hEq := hinv.entries E (popMin_mem hpop)
  have hreach0 : ∀ q e h, st.enqueued.lookup q = some (e, h) →
      (∃ E2 ∈ rest, E2.node = q ∧ E2.dist = e) ∨
        ∃ p phi, (upsert st.explored E.node (E.parent, E.dist)).lookup q =
          some (p, phi) ∧ phi ≤ e := by
    intro q e h hlk
    rcases hinv.enq_reach q e h hlk with ⟨E2, hq2, hn2, hd2⟩ | ⟨p, phi, hx2, hp2⟩
    · rcases eq_or_ne E2 E with rfl | hne
      · refine Or.inr ⟨E2.parent, E2.dist, ?_, le_of_eq hd2⟩
        rw [← hn2]
        exact lookup_upsert_self _ _ _
      · have hmem := (popMin_perm hpop).mem_iff.mpr hq2
        rcases List.mem_cons.mp hmem with rfl | hmem2
        · exact absurd rfl hne
        · exact Or.inl ⟨E2, hmem2, hn2, hd2⟩
    · by_cases hqn : q = E.node
      · subst hqn
        have hdle := hbr2 p phi hx2 e h hlk
        exact Or.inr ⟨E.parent, E.dist, lookup_upsert_self _ _ _, hdle⟩
      · refine Or.inr ⟨p, phi, ?_, hp2⟩
        rw [lookup_upsert_ne st.explored E.node q _ hqn]
        exact hx2
  have hO := relaxSuccs_stepO g hf E.node E.dist E.ghost hnn hEq.dist_nonneg
    (upsert st.explored E.node (E.parent, E.dist))
    (successors g E.node) (rest, st.enqueued, st.cnt)
    (fun e he => hinv.entries e (popMin_rest_subset hpop e he))
    hinv.enq_h hreach0
  refine ⟨hO.1, hO.2.1, hO.2.2.1, ?_, ?_, ?_, ?_, ?_, ?_⟩
  · -- the target stays unexplored
    show (upsert st.explored E.node (E.parent, E.dist)).lookup d = none
    rw [lookup_upsert_ne st.explored E.node d _ (fun h => hnt h.symm)]
    exact hinv.tgt_unexp
  · -- every explored node's successors stay relaxed
    intro q p phi hlk
    by_cases hqn : q = E.node
    · subst hqn
      have hlk2 : (upsert st.explored E.node (E.parent, E.dist)).lookup E.node =
          some (p, phi) := hlk
      rw [lookup_upsert_self] at hlk2
      have hpair := Prod.mk.inj (Option.some_inj.mp hlk2)
      intro s hsm
      obtain ⟨e, h, hl1, hle1⟩ := relaxSuccs_bound g hf E.node E.dist E.ghost
        (successors g E.node) (rest, st.enqueued, st.cnt) s hsm
      refine ⟨e, h, hl1, ?_⟩
      rw [← hpair.2]
      exact hle1
    · have hlk2 : (upsert st.explored E.node (E.parent, E.dist)).lookup q =
          some (p, phi) := hlk
      rw [lookup_upsert_ne st.explored E.node q _ hqn] at hlk2
      intro s hsm
      obtain ⟨e, h, hl1, hle1⟩ := hinv.exp_relax q p phi hlk2 s hsm
      obtain ⟨e', h', hl', hle'⟩ := hO.2.2.2.1 s e h hl1
      exact ⟨e', h', hl', le_trans hle' hle1⟩
  · -- the origin's explored record keeps its special form
    intro p phi hlk
    by_cases hqn : E.node = o
    · have hlk2 : (upsert st.explored E.node (E.parent, E.dist)).lookup o =
          some (p, phi) := hlk
      rw [hqn, lookup_upsert_self] at hlk2
      have hpair := Prod.mk.inj (Option.some_inj.mp hlk2)
      have hpn := hEo hqn
      have hdz := (hEq.init_form hpn).2
      constructor
      · rw [← hpair.1, hpn]
      · rw [← hpair.2, hdz]
    · have hlk2 : (upsert st.explored E.node (E.parent, E.dist)).lookup o =
          some (p, phi) := hlk
      rw [lookup_upsert_ne st.explored E.node o _ (fun h => hqn h.symm)] at hlk2
      exact hinv.expl_o p phi hlk2
  · -- a parentless explored record only ever sits at the origin
    intro q phi hlk
    by_cases hqn : q = E.node
    · subst hqn
      have hlk2 : (upsert st.explored E.node (E.parent, E.dist)).lookup E.node =
          some (none, phi) := hlk
      rw [lookup_upsert_self] at hlk2
      have hpair := Prod.mk.inj (Option.some_inj.mp hlk2)
      exact (hEq.init_form hpair.1).1
    · have hlk2 : (upsert st.explored E.node (E.parent, E.dist)).lookup q =
          some (none, phi) := hlk
      rw [lookup_upsert_ne st.explored E.node q _ hqn] at hlk2
      exact hinv.expl_none q phi hlk2
  · -- after any expansion the origin is explored
    intro E2 hE2 hp2
    show ((upsert st.explored E.node (E.parent, E.dist)).lookup o).isSome
    by_cases hqn : E.node = o
    · rw [hqn, lookup_upsert_self]
      rfl
    · have hpE : E.parent ≠ none := by
        intro hpn
        exact hqn (hEq.init_form hpn).1
      have hsome := hinv.origin_exp E (popMin_mem hpop) hpE
      rw [lookup_upsert_ne st.explored E.node o _ (fun h => hqn h.symm)]
      exact hsome
  · -- the origin stays reached with cost at most zero
    rcases hinv.main with ⟨E1, hq1, hno1, hd1⟩ | ⟨p, phi, hlk, hple⟩ | ⟨e, h, hlk, hele⟩
    · rcases eq_or_ne E1 E with rfl | hne
      · have hpn := hEo hno1
        have hdz := (hEq.init_form hpn).2
        refine Or.inr (Or.inl ⟨E1.parent, E1.dist, ?_, le_of_eq hdz⟩)
        show (upsert st.explored E1.node (E1.parent, E1.dist)).lookup o =
          some (E1.parent, E1.dist)
        rw [← hno1]
        exact lookup_upsert_self _ _ _
      · have hmem := (popMin_perm hpop).mem_iff.mpr hq1
        rcases List.mem_cons.mp hmem with rfl | hmem2
        · exact absurd rfl hne
        · exact Or.inl ⟨E1, hO.2.2.2.2 E1 hmem2, hno1, hd1⟩
    · refine Or.inr (Or.inl ?_)
      by_cases hqn : E.node = o
      · have hpn := hEo hqn
        have hdz := (hEq.init_form hpn).2
        refine ⟨E.parent, E.dist, ?_, le_of_eq hdz⟩
        show (upsert st.explored E.node (E.parent, E.dist)).lookup o =
          some (E.parent, E.dist)
        rw [hqn]
        exact lookup_upsert_self _ _ _
      · refine ⟨p, phi, ?_, hple⟩
        show (upsert st.explored E.node (E.parent, E.dist)).lookup o = some (p, phi)
        rw [lookup_upsert_ne st.explored E.node o _ (fun h => hqn h.symm)]
        exact hlk
    · obtain ⟨e', h', hl', hle'⟩ := hO.2.2.2.1 o e h hlk
      exact Or.inr (Or.inr ⟨e', h', hl', le_trans hle' hele⟩)

/-- A `.next` iteration preserves the optimality invariant. -/
theorem astarStep_next_invO {g : Graph} {hf : Nat → Cost} {o d : Nat} {st st' : AState}
    (hnn : NonnegLengths g)
    (hinv : InvO g o d hf st) (hstep : astarStep g hf d st = .next st') :
    InvO g o d hf st' := by
  obtain ⟨E, rest, hpop, hnt, hcase⟩ := astarStep_next_cases hstep
  rcases hcase with ⟨rfl, hskip⟩ | ⟨rfl, hexp⟩
  · -- the popped entry is dropped
    refine ⟨?_, hinv.enq_h, ?_, hinv.tgt_unexp, hinv.exp_relax, hinv.expl_o,
      hinv.expl_none, ?_, ?_⟩
    · exact fun e he => hinv.entries e (popMin_rest_subset hpop e he)
    · intro q e h hlk
      rcases hinv.enq_reach q e h hlk with ⟨Ej, hq, hnode, hdiste⟩ | h2
      · rcases eq_or_ne Ej E with rfl | hne
        · rcases hskip with ⟨phi, hexpl⟩ | ⟨p, phi, e2, hv2, hexpl, henq2, hlt⟩
          · have hqo : Ej.node = o := hinv.expl_none Ej.node phi hexpl
            have hphi0 := (hinv.expl_o none phi (by rw [← hqo]; exact hexpl)).2
            refine Or.inr ⟨none, phi, ?_, ?_⟩
            · rw [← hnode]
              exact hexpl
            · rw [hphi0]
              exact (hinv.enq_h q e h hlk).2
          · rw [hnode, hlk] at henq2
            have hee := (Prod.mk.inj (Option.some_inj.mp henq2)).1
            rw [← hee, hdiste] at hlt
            exact absurd hlt (lt_irrefl e)
        · have hmem := (popMin_perm hpop).mem_iff.mpr hq
          rcases List.mem_cons.mp hmem with rfl | hmem2
          · exact absurd rfl hne
          · exact Or.inl ⟨Ej, hmem2, hnode, hdiste⟩
      · exact Or.inr h2
    · exact fun e he hp => hinv.origin_exp e (popMin_rest_subset hpop e he) hp
    · rcases hinv.main with ⟨E1, hq1, hno1, hd1⟩ | h2 | h3
      · rcases eq_or_ne E1 E with rfl | hne
        · rcases hskip with ⟨phi, hexpl⟩ | ⟨p, phi, e2, hv2, hexpl, -, -⟩
          · have hphi0 := (hinv.expl_o none phi (by rw [← hno1]; exact hexpl)).2
            exact Or.inr (Or.inl ⟨none, phi, by rw [← hno1]; exact hexpl,
              le_of_eq hphi0⟩)
          · have hcon := (hinv.expl_o (some p) phi (by rw [← hno1]; exact hexpl)).1
            exact Option.noConfusion hcon
        · have hmem := (popMin_perm hpop).mem_iff.mpr hq1
          rcases List.mem_cons.mp hmem with rfl | hmem2
          · exact absurd rfl hne
          · exact Or.inl ⟨E1, hmem2, hno1, hd1⟩
      · exact Or.inr (Or.inl h2)
      · exact Or.inr (Or.inr h3)
  · -- expansion
    have hEo : E.node = o → E.parent = none := by
      intro hno
      by_contra hp
      have hsome := hinv.origin_exp E (popMin_mem hpop) hp
      rcases hexp with hnone | ⟨p, phi, e2, hv2, hexpl, -, -⟩
      · rw [hno] at hnone
        rw [hnone] at hsome
        simp at hsome
      · rw [hno] at hexpl
        have hcon := (hinv.expl_o _ _ hexpl).1
        exact Option.noConfusion hcon
    have hbr2 : ∀ p phi, st.explored.lookup E.node = some (p, phi) →
        ∀ e h, st.enqueued.lookup E.node = some (e, h) → E.dist ≤ e := by
      intro p phi hexpl e h henq
      rcases hexp with hnone | ⟨p2, phi2, e2, hv2, hexpl2, henq2, hle2⟩
      · rw [hnone] at hexpl
        exact Option.noConfusion hexpl
      · rw [henq] at henq2
        have hee := (Prod.mk.inj (Option.some_inj.mp henq2)).1
        rw [hee]
        exact hle2
    exact expandState_invO hnn hinv hpop hEo hnt hbr2

/-- The initial state satisfies the optimality invariant. -/
theorem initState_invO (g : Graph) (o d : Nat) (hf : Nat → Cost) :
    InvO g o d hf (initState o) := by
  refine ⟨?_, ?_, ?_, rfl, ?_, ?_, ?_, ?_, ?_⟩
  · intro E hE
    have hE1 : E = ⟨(0 : Cost), 0, o, 0, none, [o]⟩ := List.mem_singleton.mp hE
    subst hE1
    exact ⟨le_refl 0, fun _ => ⟨rfl, rfl⟩, Or.inl ⟨rfl, rfl⟩,
      fun hp => absurd rfl hp⟩
  · intro q e h hlk
    simp [initState, List.lookup_nil] at hlk
  · intro q e h hlk
    simp [initState, List.lookup_nil] at hlk
  · intro q p phi hlk
    simp [initState, List.lookup_nil] at hlk
  · intro p phi hlk
    simp [initState, List.lookup_nil] at hlk
  · intro q phi hlk
    simp [initState, List.lookup_nil] at hlk
  · intro E hE hp
    have hE1 : E = ⟨(0 : Cost), 0, o, 0, none, [o]⟩ := List.mem_singleton.mp hE
    rw [hE1] at hp
    exact absurd rfl hp
  · exact Or.inl ⟨⟨(0 : Cost), 0, o, 0, none, [o]⟩, List.mem_singleton.mpr rfl,
      rfl, le_refl 0⟩

/-- When the target entry `Et` is popped, any queue entry `Ej` covering a
node `m` of a walk to the target with dist within `acc` bounds the
returned cost: `c ≤ acc + wWeight W2` by heap minimality, the priority
form `f = dist + h(node)`, and admissibility at `m`. -/
theorem found_le_entry {g : Graph} {hf : Nat → Cost} {o d : Nat} {st : AState}
    {Et : Entry} {restt : List Entry} {c : ℚ}
    (hnn : NonnegLengths g) (h0 : ∀ q, (0 : Cost) ≤ hf q) (hadm : Admissible g d hf)
    (hinv : InvO g o d hf st)
    (hpop : popMin st.queue = some (Et, restt))
    (htgt : Et.node = d) (hdist : Et.dist = c)
    {Ej : Entry} {m : Nat} {acc : ℚ} {W2 : List Nat}
    (hq : Ej ∈ st.queue) (hnode : Ej.node = m) (hdle : Ej.dist ≤ acc) (hacc : 0 ≤ acc)
    (hw : IsWalk g m d W2) :
    c ≤ acc + wWeight g W2 := by
  have hEt := hinv.entries Et (popMin_mem hpop)
  have hcf : ((c : ℚ) : Cost) ≤ Et.f := by
    rcases hEt.f_form with ⟨hf0, hd0⟩ | hfr
    · rw [hf0, ← hdist, hd0]
      simp
    · rw [hfr, hdist, htgt]
      exact le_add_of_nonneg_right (h0 d)
  have hmin : Et.f ≤ Ej.f := popMin_fmin hpop Ej hq
  have hwnn : 0 ≤ wWeight g W2 := wWeight_nonneg hnn W2
  have hEj := hinv.entries Ej hq
  rcases hEj.f_form with ⟨hf0, -⟩ | hfr
  · have h1 : ((c : ℚ) : Cost) ≤ (0 : Cost) := le_trans hcf (hf0 ▸ hmin)
    have h2 : c ≤ (0 : ℚ) := by exact_mod_cast h1
    linarith
  · have h1 : ((c : ℚ) : Cost) ≤ ((Ej.dist : ℚ) : Cost) + hf m := by
      rw [← hnode]
      exact le_trans hcf (le_trans hmin (le_of_eq hfr))
    have h2 : ((Ej.dist : ℚ) : Cost) + hf m ≤
        ((acc : ℚ) : Cost) + ((wWeight g W2 : ℚ) : Cost) :=
      add_le_add (by exact_mod_cast hdle) (hadm m W2 hw)
    have h3 := le_trans h1 h2
    rw [← WithTop.coe_add] at h3
    exact_mod_cast h3

/-- Chasing a walk to the target through the final state: if some node `m`
of the walk is reached (explored or enqueued) within the weight of the
walk's prefix up to `m`, the returned cost is at most the walk's weight.
The target itself is never explored, so the chase always ends at a queue
entry. -/
theorem chase_walk {g : Graph} {hf : Nat → Cost} {o d : Nat} {st : AState}
    {Et : Entry} {restt : List Entry} {c : ℚ}
    (hnn : NonnegLengths g) (h0 : ∀ q, (0 : Cost) ≤ hf q) (hadm : Admissible g d hf)
    (hinv : InvO g o d hf st)
    (hpop : popMin st.queue = some (Et, restt))
    (htgt : Et.node = d) (hdist : Et.dist = c) :
    ∀ (W2 : List Nat) (m : Nat) (acc : ℚ), 0 ≤ acc → IsWalk g m d W2 →
      ((∃ p phi, st.explored.lookup m = some (p, phi) ∧ phi ≤ acc) ∨
        ∃ e h, st.enqueued.lookup m = some (e, h) ∧ e ≤ acc) →
      c ≤ acc + wWeight g W2
  | [], m, acc, _, hw, _ => absurd rfl hw.1
  | [x], m, acc, hacc, hw, hr => by
    have hmd : m = d := by
      have h1 : x = m := by simpa using hw.2.1
      have h2 : x = d := by simpa using hw.2.2.1
      rw [← h1, h2]
    rcases hr with ⟨p, phi, hlk, -⟩ | ⟨e, h, he, hele⟩
    · rw [hmd, hinv.tgt_unexp] at hlk
      exact Option.noConfusion hlk
    · rcases hinv.enq_reach _ _ _ he with ⟨Ej, hq, hnode, hdiste⟩ | ⟨p, phi, hlk, hple⟩
      · exact found_le_entry hnn h0 hadm hinv hpop htgt hdist hq hnode
          (by rw [hdiste]; exact hele) hacc hw
      · rw [hmd, hinv.tgt_unexp] at hlk
        exact Option.noConfusion hlk
  | x :: y :: W3, m, acc, hacc, hw, hr => by
    have hxm : x = m := by simpa using hw.2.1
    have hstepcase : c ≤ acc + wWeight g (x :: y :: W3) ∨
        ∃ p phi, st.explored.lookup m = some (p, phi) ∧ phi ≤ acc := by
      rcases hr with ⟨p, phi, hlk, hple⟩ | ⟨e, h, he, hele⟩
      · exact Or.inr ⟨p, phi, hlk, hple⟩
      · rcases hinv.enq_reach _ _ _ he with ⟨Ej, hq, hnode, hdiste⟩ | ⟨p, phi, hlk, hple⟩
        · exact Or.inl (found_le_entry hnn h0 hadm hinv hpop htgt hdist hq hnode
            (by rw [hdiste]; exact hele) hacc hw)
        · exact Or.inr ⟨p, phi, hlk, le_trans hple hele⟩
    rcases hstepcase with hdone | ⟨p, phi, hlk, hple⟩
    · exact hdone
    · have hedge : hasEdge g x y := (List.chain'_cons.mp hw.2.2.2).1
      have hsy : y ∈ successors g m := by
        rw [← hxm]
        exact hasEdge_iff_successor.mpr hedge
      have hw2 : IsWalk g y d (y :: W3) := by
        obtain ⟨-, -, hl, hch⟩ := hw
        rw [List.getLast?_cons_cons] at hl
        exact ⟨by simp, rfl, hl, (List.chain'_cons.mp hch).2⟩
      obtain ⟨e2, h2, he2, hb2⟩ := hinv.exp_relax m p phi hlk y hsy
      have hw0 : 0 ≤ astarWeight g m y := astarWeight_nonneg hnn m y
      have hacc2 : 0 ≤ acc + astarWeight g m y := by linarith
      have hrec := chase_walk hnn h0 hadm hinv hpop htgt hdist (y :: W3) y
        (acc + astarWeight g m y) hacc2 hw2
        (Or.inr ⟨e2, h2, he2, le_trans hb2 (by linarith)⟩)
      rw [hxm, wWeight_cons_cons]
      linarith

/-- If the loop returns `found p c` from a state satisfying the optimality
invariant, the cost `c` is at most the cost of every walk from the origin
to the target. -/
theorem astarLoop_found_le {g : Graph} {hf : Nat → Cost} {o d : Nat}
    (hnn : NonnegLengths g) (h0 : ∀ q, (0 : Cost) ≤ hf q) (hadm : Admissible g d hf) :
    ∀ (fuel : Nat) (st : AState), InvO g o d hf st →
      ∀ (p : List Nat) (c : ℚ), astarLoop g hf d fuel st = .found p c →
        ∀ W, IsWalk g o d W → c ≤ wWeight g W
  | 0, st, _, p, c, h => by simp [astarLoop] at h
  | fuel + 1, st, hinv, p, c, h => by
    rw [astarLoop] at h
    rcases hstep : astarStep g hf d st with r | st' <;> rw [hstep] at h
    · subst h
      obtain ⟨Et, restt, hpop, htgt, hdist⟩ := astarStep_found hstep
      intro W hW
      rcases hinv.main with ⟨E1, hq1, hno1, hd1⟩ | ⟨p2, phi, hlk, hple⟩ | ⟨e, hh, hlk, hele⟩
      · have h1 := found_le_entry hnn h0 hadm hinv hpop htgt hdist hq1 hno1 hd1
          (le_refl 0) hW
        simpa using h1
      · have h1 := chase_walk hnn h0 hadm hinv hpop htgt hdist W o 0 (le_refl 0) hW
          (Or.inl ⟨p2, phi, hlk, hple⟩)
        simpa using h1
      · have h1 := chase_walk hnn h0 hadm hinv hpop htgt hdist W o 0 (le_refl 0) hW
          (Or.inr ⟨e, hh, hlk, hele⟩)
        simpa using h1
    · exact astarLoop_found_le hnn h0 hadm fuel st'
        (astarStep_next_invO hnn hinv hstep) p c h

/-- Optimality of the modelled search: on nonnegative lengths, with a
nonnegative admissible heuristic, a `found` result's cost is at most the
cost of every walk from origin to destination. -/
theorem nx_found_le {g : Graph} {hf : Nat → Cost} {o d : Nat}
    (hnn : NonnegLengths g) (h0 : ∀ q, (0 : Cost) ≤ hf q) (hadm : Admissible g d hf)
    {p : List Nat} {c : ℚ} (hrun : nx_astar_path g hf o d = .found p c) :
    ∀ W, IsWalk g o d W → c ≤ wWeight g W := by
  unfold nx_astar_path at hrun
  by_cases hmem : o ∈ universeNodes g ∧ d ∈ universeNodes g
  · rw [if_pos hmem] at hrun
    exact astarLoop_found_le hnn h0 hadm (fuelBound g o) (initState o)
      (initState_invO g o d hf) p c hrun
  · rw [if_neg hmem] at hrun
    exact absurd hrun (by simp)

/-- Soundness of the modelled search: a `found` result's cost is the
`weight="length"` cost of an actual walk from origin to destination. -/
theorem nx_found_walk {g : Graph} {hf : Nat → Cost} {o d : Nat}
    {p : List Nat} {c : ℚ} (hrun : nx_astar_path g hf o d = .found p c) :
    ∃ W, IsWalk g o d W ∧ wWeight g W = c := by
  unfold nx_astar_path at hrun
  by_cases hmem : o ∈ universeNodes g ∧ d ∈ universeNodes g
  · rw [if_pos hmem] at hrun
    refine astarLoop_found_walk g hf o d (fuelBound g o) (initState o) ?_ p c hrun
    intro E hE
    have hE1 : E = ⟨(0 : Cost), 0, o, 0, none, [o]⟩ := List.mem_singleton.mp hE
    subst hE1
    exact ⟨IsWalk_singleton g o, rfl⟩
  · rw [if_neg hmem] at hrun
    exact absurd hrun (by simp)

/-- The RouteFinder2/RouteFinder3 heuristic is nonnegative whenever the
geodesic distance function is. -/
theorem heuristic_RF2_nonneg (geo : Geo) (g : Graph) (u v : Nat)
    (hgeo : ∀ a b, 0 ≤ geo a b) : (0 : Cost) ≤ heuristic_RF2 geo g u v := by
  unfold heuristic_RF2
  rcases hav : advanced_heuristic geo g u v with _ | c
  · exact le_top
  · dsimp only
    unfold advanced_heuristic at hav
    rcases h1 : coordOf g u with _ | cu <;> rcases h2 : coordOf g v with _ | cv <;>
      rw [h1, h2] at hav <;> dsimp only at hav
    · simp at hav
    · simp at hav
    · simp at hav
    · rcases h3 : getEdgeData g u v with _ | ⟨e0, tl⟩ <;> rw [h3] at hav <;>
        dsimp only at hav
      · have hc := Option.some_inj.mp hav
        rw [← hc]
        exact le_top
      · have hc := Option.some_inj.mp hav
        rw [← hc]
        split_ifs with hsp
        · exact_mod_cast div_nonneg (hgeo cu cv) (le_of_lt hsp)
        · exact le_top

theorem advHFun_nonneg (geo : Geo) (g : Graph) (d : Nat)
    (hgeo : ∀ a b, 0 ≤ geo a b) : ∀ q, (0 : Cost) ≤ advHFun geo g d q :=
  fun q => heuristic_RF2_nonneg geo g q d hgeo

theorem simpleHFun_nonneg (geo : Geo) (g : Graph) (d : Nat)
    (hgeo : ∀ a b, 0 ≤ geo a b) : ∀ q, (0 : Cost) ≤ simpleHFun geo g d q := by
  intro q
  unfold simpleHFun simple_heuristic
  rcases h1 : coordOf g q with _ | cu <;> rcases h2 : coordOf g d with _ | cv <;>
    dsimp only
  · exact le_top
  · exact le_top
  · exact le_top
  · exact_mod_cast hgeo cu cv

/-! ## Claim C9 (both searches minimize the same length objective) -/

/-- C9: both `nx.astar_path` calls are made with `weight="length"`
(RouteFinder3.py lines 92 and 97, RouteFinder1.py lines 86–89), so the
Simple-heuristic search and the Advanced-heuristic search accumulate the
same per-edge weight — the edge's `length` attribute.  Hence on every
graph with nonnegative lengths and every origin/destination pair on which
both searches succeed and both heuristics are admissible (with a
nonnegative geodesic function), the two returned routes have equal total
length: each found total is the length of an actual walk and is at most
the length of every walk to the destination, so the two totals sandwich
each other. -/
theorem C9_equal_total_length (g : Graph) (geo : Geo) (o d : Nat)
    (hnn : NonnegLengths g) (hgeo : ∀ a b, 0 ≤ geo a b)
    (hadm1 : Admissible g d (simpleHFun geo g d))
    (hadm2 : Admissible g d (advHFun geo g d))
    {p1 p2 : List Nat} {c1 c2 : ℚ}
    (h1 : nx_astar_path g (simpleHFun geo g d) o d = .found p1 c1)
    (h2 : nx_astar_path g (advHFun geo g d) o d = .found p2 c2) :
    c1 = c2 := by
  obtain ⟨W2, hW2, hc2⟩ := nx_found_walk h2
  obtain ⟨W1, hW1, hc1⟩ := nx_found_walk h1
  have ha := nx_found_le hnn (simpleHFun_nonneg geo g d hgeo) hadm1 h1 W2 hW2
  have hb := nx_found_le hnn (advHFun_nonneg geo g d hgeo) hadm2 h2 W1 hW1
  rw [hc2] at ha
  rw [hc1] at hb
  linarith

/-- Every walk in `gLoop` starts at node 1 or node 2. -/
theorem gLoop_walk_start {n : Nat} {W : List Nat} (hW : IsWalk gLoop n 2 W) :
    n = 1 ∨ n = 2 := by
  obtain ⟨hne, hh, hl, hch⟩ := hW
  rcases W with _ | ⟨a, W1⟩
  · exact absurd rfl hne
  · simp only [List.head?_cons, Option.some_inj] at hh
    subst hh
    rcases W1 with _ | ⟨b, W2⟩
    · simp only [List.getLast?_singleton, Option.some_inj] at hl
      exact Or.inr hl
    · have hedge : hasEdge gLoop a b := (List.chain'_cons.mp hch).1
      have h2 : a ∈ universeNodes gLoop := (hasEdge_endpoints hedge).1
      have huniv : universeNodes gLoop = [1, 2] := by decide
      rw [huniv] at h2
      simpa using h2

theorem gLoop_nonneg : NonnegLengths gLoop := by
  intro e he
  simp [gLoop] at he
  rcases he with rfl | rfl <;> norm_num [Option.getD_some]

theorem gLoop_adm_simple : Admissible gLoop 2 (simpleHFun geoZero gLoop 2) := by
  intro n W hW
  have hwnn : (0 : ℚ) ≤ wWeight gLoop W := wWeight_nonneg gLoop_nonneg W
  have hval : ∀ m, simpleHFun geoZero gLoop 2 m = ((0 : ℚ) : Cost) →
      simpleHFun geoZero gLoop 2 m ≤ ((wWeight gLoop W : ℚ) : Cost) := by
    intro m hm
    rw [hm]
    exact_mod_cast hwnn
  rcases gLoop_walk_start hW with rfl | rfl
  · refine hval 1 ?_
    norm_num +decide [simpleHFun, simple_heuristic, coordOf, gLoop, geoZero,
      List.find?_cons]
  · refine hval 2 ?_
    norm_num +decide [simpleHFun, simple_heuristic, coordOf, gLoop, geoZero,
      List.find?_cons]

theorem gLoop_adm_adv : Admissible gLoop 2 (advHFun geoZero gLoop 2) := by
  intro n W hW
  have hwnn : (0 : ℚ) ≤ wWeight gLoop W := wWeight_nonneg gLoop_nonneg W
  have hval : ∀ m, advHFun geoZero gLoop 2 m = ((0 : ℚ) : Cost) →
      advHFun geoZero gLoop 2 m ≤ ((wWeight gLoop W : ℚ) : Cost) := by
    intro m hm
    rw [hm]
    exact_mod_cast hwnn
  rcases gLoop_walk_start hW with rfl | rfl
  · refine hval 1 ?_
    norm_num +decide [advHFun, heuristic_RF2, advanced_heuristic, coordOf, getEdgeData,
      gLoop, geoZero, edgeSpeedMps, speed_mapping, condition_factor, traffic_factor,
      List.find?_cons, List.filter_cons]
  · refine hval 2 ?_
    norm_num +decide [advHFun, heuristic_RF2, advanced_heuristic, coordOf, getEdgeData,
      gLoop, geoZero, edgeSpeedMps, speed_mapping, condition_factor, traffic_factor,
      List.find?_cons, List.filter_cons]

theorem C9_equal_total_length_witness :
    NonnegLengths gLoop ∧
      Admissible gLoop 2 (simpleHFun geoZero gLoop 2) ∧
      Admissible gLoop 2 (advHFun geoZero gLoop 2) ∧
      nx_astar_path gLoop (simpleHFun geoZero gLoop 2) 2 2 = .found [2] 0 ∧
      nx_astar_path gLoop (advHFun geoZero gLoop 2) 2 2 = .found [2] 0 ∧
      (0 : ℚ) = 0 := by
  have hrun1 : nx_astar_path gLoop (simpleHFun geoZero gLoop 2) 2 2 = .found [2] 0 := rfl
  have hrun2 : nx_astar_path gLoop (advHFun geoZero gLoop 2) 2 2 = .found [2] 0 := rfl
  exact ⟨gLoop_nonneg, gLoop_adm_simple, gLoop_adm_adv, hrun1, hrun2,
    C9_equal_total_length gLoop geoZero 2 2 gLoop_nonneg (fun _ _ => le_refl 0)
      gLoop_adm_simple gLoop_adm_adv hrun1 hrun2⟩

/-! ## Claim C3 (what the search accumulates) -/

/-- C3: the claim fails on the code: `nx.astar_path` is called with
`weight="length"`, so the cost accumulated per traversed edge is the raw
`length` attribute, not the Advanced time formula.  On a single 10 m
traffic-high edge the search (with the code's advanced heuristic)
accumulates 10, while `length / speed_mps` with the traffic factor is
9/4 s. -/
theorem C3_search_cost_is_length_not_time :
    nx_astar_path gTraffic (advHFun geoZero gTraffic 2) 1 2 = .found [1, 2] 10 ∧
    wWeight gTraffic [1, 2] = 10 ∧
    advancedEdgeCost { length := some 10, traffic := some "high" } = ((9/4 : ℚ) : Cost) ∧
    ¬ ((10 : ℚ) = (9/4 : ℚ)) := by
  refine ⟨?_, ?_, ?_, by norm_num⟩
  · norm_num +decide [nx_astar_path, fuelBound, universeNodes, dedupFirst, dedupFirstAux,
      allTWalks, walksFrom, successors, gTraffic, initState, astarLoop, astarStep, popMin,
      popMinAux, expandState, relaxSuccs, relaxOne, astarWeight, getEdgeData,
      List.filter_cons, reconstruct, upsert, List.lookup, advHFun, heuristic_RF2,
      advanced_heuristic, coordOf, List.find?_cons, edgeSpeedMps, speed_mapping,
      condition_factor, traffic_factor, geoZero, entryLtB]
  · norm_num +decide [wWeight, astarWeight, getEdgeData, gTraffic, List.filter_cons]
  · norm_num +decide [advancedEdgeCost, edgeSpeedMps, speed_mapping, condition_factor,
      traffic_factor]

/-- C3 amended: whenever the search succeeds, the accumulated total cost
is the `weight="length"` cost (per traversed pair, the minimum `length`
attribute of the parallel edges, default 1) of an actual walk from the
origin to the destination — the search minimizes length; the Advanced
time formula is used only inside the heuristic. -/
theorem C3_search_accumulates_length (g : Graph) (hf : Nat → Cost) (o d : Nat)
    (p : List Nat) (c : ℚ) (h : nx_astar_path g hf o d = .found p c) :
    ∃ W, IsWalk g o d W ∧ wWeight g W = c := by
  unfold nx_astar_path at h
  split_ifs at h
  refine astarLoop_found_walk g hf o d (fuelBound g o) (initState o) ?_ p c h
  intro E hE
  simp only [initState, List.mem_singleton] at hE
  subst hE
  exact ⟨IsWalk_singleton g o, rfl⟩

/-- C3 amended, witness: the concrete run on the traffic-high edge. -/
theorem C3_search_accumulates_length_witness :
    nx_astar_path gTraffic (advHFun geoZero gTraffic 2) 1 2 = .found [1, 2] 10 ∧
    ∃ W, IsWalk gTraffic 1 2 W ∧ wWeight gTraffic W = 10 := by
  have hrun : nx_astar_path gTraffic (advHFun geoZero gTraffic 2) 1 2 = .found [1, 2] 10 := by
    norm_num +decide [nx_astar_path, fuelBound, universeNodes, dedupFirst, dedupFirstAux,
      allTWalks, walksFrom, successors, gTraffic, initState, astarLoop, astarStep, popMin,
      popMinAux, expandState, relaxSuccs, relaxOne, astarWeight, getEdgeData,
      List.filter_cons, reconstruct, upsert, List.lookup, advHFun, heuristic_RF2,
      advanced_heuristic, coordOf, List.find?_cons, edgeSpeedMps, speed_mapping,
      condition_factor, traffic_factor, geoZero, entryLtB]
  exact ⟨hrun, C3_search_accumulates_length gTraffic (advHFun geoZero gTraffic 2) 1 2
    [1, 2] 10 hrun⟩

/-! ## Claim C1 (heuristic admissibility) -/

/-- C1: the claim "for every pair of nodes u, v in the graph the Advanced
heuristic satisfies `heuristic(u,v) ≤ true_shortest_cost(u,v)`" fails on
the code: on the chain 1 → 2 → 3 the heuristic evaluates the non-adjacent
pair (1,3) to `float("inf")` (there is no direct edge), although the path
[1,2,3] is a walk from 1 to 3 of finite Advanced cost 9/10 s, so the
heuristic strictly exceeds the true minimum cost.  (The spec itself flags
the source's edge-dependent heuristic as the bug, §9.) -/
theorem C1_admissibility_fails :
    advanced_heuristic geoZero gChain3 1 3 = some ⊤ ∧
    IsWalk gChain3 1 3 [1, 2, 3] ∧
    advPathCost gChain3 [1, 2, 3] = ((9/10 : ℚ) : Cost) ∧
    ¬ ((⊤ : Cost) ≤ ((9/10 : ℚ) : Cost)) := by
  refine ⟨?_, ?_, ?_, ?_⟩
  · norm_num +decide [advanced_heuristic, coordOf, getEdgeData, gChain3, geoZero,
      List.find?_cons, List.filter_cons]
  · refine ⟨by simp, rfl, rfl, ?_⟩
    simp only [List.chain'_cons, List.chain'_singleton, and_true]
    constructor <;> · simp [hasEdge, getEdgeData, gChain3, List.filter_cons]
  · norm_num +decide [advPathCost, getEdgeData, gChain3, advancedEdgeCost, edgeSpeedMps,
      speed_mapping, condition_factor, traffic_factor, List.filter_cons]
    norm_cast
    norm_num
  · exact WithTop.not_top_le_coe _

/-! ## Claim C2 (form of the Advanced heuristic) -/

/-- C2: the claim "the Advanced heuristic equals the great-circle distance
divided by the model-wide maximum speed (100 km/h in m/s), independent of
whether an edge joins u and v" fails on the code: with a constant 100 m
geodesic distance, the heuristic of the adjacent residential pair (1,2)
is `100 / (40 km/h in m/s) = 9 s` while the claimed value is
`100 / (100 km/h in m/s) = 18/5 s`, and the non-adjacent pair (1,3) gets
`float("inf")` instead of the claimed finite 18/5 s. -/
theorem C2_heuristic_not_max_speed :
    advanced_heuristic geoHundred gChain3 1 2 = some ((9 : ℚ) : Cost) ∧
    specAdvHeuristic geoHundred gChain3 1 2 = some (18/5) ∧
    ((9 : ℚ) : Cost) ≠ ((18/5 : ℚ) : Cost) ∧
    advanced_heuristic geoHundred gChain3 1 3 = some ⊤ ∧
    specAdvHeuristic geoHundred gChain3 1 3 = some (18/5) := by
  refine ⟨?_, ?_, ?_, ?_, ?_⟩
  · norm_num +decide [advanced_heuristic, coordOf, getEdgeData, gChain3, geoHundred,
      List.find?_cons, List.filter_cons, edgeSpeedMps, speed_mapping, condition_factor,
      traffic_factor]
  · norm_num +decide [specAdvHeuristic, coordOf, gChain3, geoHundred, maxSpeedMps,
      List.find?_cons]
  · intro h
    rw [WithTop.coe_eq_coe] at h
    norm_num at h
  · norm_num +decide [advanced_heuristic, coordOf, getEdgeData, gChain3, geoHundred,
      List.find?_cons, List.filter_cons]
  · norm_num +decide [specAdvHeuristic, coordOf, gChain3, geoHundred, maxSpeedMps,
      List.find?_cons]

/-! ## Claim C5 (route summary) -/

theorem getEdgeData_withFactors (g : Graph) (c t : Option String) (u v : Nat) :
    getEdgeData (withFactors g c t) u v =
      (getEdgeData g u v).map (fun e => { e with road_condition := c, traffic := t }) := by
  unfold getEdgeData withFactors
  rw [List.filter_map, List.map_map, List.map_map]
  rfl

/-- The code's `route_length` accumulator equals the sum of the key-0 edge
lengths over consecutive pairs. -/
theorem routeLengthM_eq_sum (g : Graph) :
    ∀ (p : List Nat) (l : ℚ), routeLengthM g p = some l →
      l = ((pairsOf p).map (fun q => firstEdgeLen g q.1 q.2)).sum
  | [], l, h => by
    simp only [routeLengthM, Option.some_inj] at h
    simp [pairsOf, ← h]
  | [u], l, h => by
    simp only [routeLengthM, Option.some_inj] at h
    simp [pairsOf, ← h]
  | u :: v :: rest, l, h => by
    rcases he : (getEdgeData g u v).head? with _ | e <;>
      rcases ht : routeLengthM g (v :: rest) with _ | ts <;>
        simp only [routeLengthM, he, ht, Option.bind_eq_bind, Option.none_bind,
          Option.some_bind, Option.some_inj, reduceCtorEq] at h
    simp only [Option.pure_def, Option.some_inj] at h
    have ih := routeLengthM_eq_sum g (v :: rest) ts ht
    simp [pairsOf, ← h, ih, firstEdgeLen, he]

/-- The code's `estimated_time_min` accumulator equals the sum of the
base-speed-only per-edge times over consecutive pairs. -/
theorem estTimeMin_eq_sum (g : Graph) :
    ∀ (p : List Nat) (l : ℚ), estTimeMin g p = some l →
      l = ((pairsOf p).map (fun q => firstEdgeTimeMin g q.1 q.2)).sum
  | [], l, h => by
    simp only [estTimeMin, Option.some_inj] at h
    simp [pairsOf, ← h]
  | [u], l, h => by
    simp only [estTimeMin, Option.some_inj] at h
    simp [pairsOf, ← h]
  | u :: v :: rest, l, h => by
    rcases he : (getEdgeData g u v).head? with _ | e <;>
      rcases ht : estTimeMin g (v :: rest) with _ | ts <;>
        simp only [estTimeMin, he, ht, Option.bind_eq_bind, Option.none_bind,
          Option.some_bind, Option.some_inj, reduceCtorEq] at h
    simp only [Option.pure_def, Option.some_inj] at h
    have ih := estTimeMin_eq_sum g (v :: rest) ts ht
    simp [pairsOf, ← h, ih, firstEdgeTimeMin, he, baseTimeMin]

/-- The summary time reads only `length` and `highway`, so overwriting
every edge's `road_condition` and `traffic` changes nothing. -/
theorem estTimeMin_ignores_factors (g : Graph) (c t : Option String) :
    ∀ p : List Nat, estTimeMin (withFactors g c t) p = estTimeMin g p
  | [] => rfl
  | [_] => rfl
  | u :: v :: rest => by
    have ih := estTimeMin_ignores_factors g c t (v :: rest)
    simp only [estTimeMin, getEdgeData_withFactors, List.head?_map, ih]
    cases (getEdgeData g u v).head? <;> rfl

/-- C5: the claim's time formula ("the same base_speed/condition/traffic
formula as the Advanced model's edge cost") fails on the code: for the
single traffic-high 10 m residential edge the summary computes
`(10/1000)/40*60 = 3/200 min` (i.e. 9/10 s), while the Advanced edge
cost with the traffic factor applied is 9/4 s. -/
theorem C5_time_ignores_factors :
    estTimeMin gTraffic [1, 2] = some (3/200) ∧
    advPathCost gTraffic [1, 2] = ((9/4 : ℚ) : Cost) ∧
    ¬ ((3/200 : ℚ) * 60 = (9/4 : ℚ)) := by
  refine ⟨?_, ?_, by norm_num⟩
  · norm_num +decide [estTimeMin, getEdgeData, gTraffic, speed_mapping, List.filter_cons,
      Option.bind]
  · norm_num +decide [advPathCost, getEdgeData, gTraffic, advancedEdgeCost, edgeSpeedMps,
      speed_mapping, condition_factor, traffic_factor, List.filter_cons]

/-- C5 amended: the summary's distance is the sum of the key-0 edge
lengths over consecutive pairs and its time is the sum of per-edge times
computed from the base road-class speed only (the condition and traffic
factors are not applied — overwriting them changes nothing); a
single-node path (origin = destination) yields zero distance and zero
time. -/
theorem C5_summary_amended (g : Graph) (p : List Nat) (x : Nat) (c t : Option String)
    (l tm : ℚ) (hl : routeLengthM g p = some l) (ht : estTimeMin g p = some tm) :
    l = ((pairsOf p).map (fun q => firstEdgeLen g q.1 q.2)).sum ∧
    tm = ((pairsOf p).map (fun q => firstEdgeTimeMin g q.1 q.2)).sum ∧
    estTimeMin (withFactors g c t) p = estTimeMin g p ∧
    routeLengthM g [x] = some 0 ∧ estTimeMin g [x] = some 0 :=
  ⟨routeLengthM_eq_sum g p l hl, estTimeMin_eq_sum g p tm ht,
    estTimeMin_ignores_factors g c t p, rfl, rfl⟩

/-- C5 amended, witness: instantiated on the traffic-high edge. -/
theorem C5_summary_amended_witness :
    (routeLengthM gTraffic [1, 2] = some 10 ∧ estTimeMin gTraffic [1, 2] = some (3/200)) ∧
    (10 = ((pairsOf [1, 2]).map (fun q => firstEdgeLen gTraffic q.1 q.2)).sum ∧
      (3/200 : ℚ) = ((pairsOf [1, 2]).map (fun q => firstEdgeTimeMin gTraffic q.1 q.2)).sum ∧
      estTimeMin (withFactors gTraffic (some "poor") (some "high")) [1, 2] =
        estTimeMin gTraffic [1, 2] ∧
      routeLengthM gTraffic [7] = some 0 ∧ estTimeMin gTraffic [7] = some 0) := by
  have hl : routeLengthM gTraffic [1, 2] = some 10 := by
    norm_num +decide [routeLengthM, getEdgeData, gTraffic, List.filter_cons, Option.bind]
  have ht : estTimeMin gTraffic [1, 2] = some (3/200) := by
    norm_num +decide [estTimeMin, getEdgeData, gTraffic, speed_mapping, List.filter_cons,
      Option.bind]
  exact ⟨⟨hl, ht⟩,
    C5_summary_amended gTraffic [1, 2] 7 (some "poor") (some "high") 10 (3/200) hl ht⟩

/-! ## Claim C6 (edge cost bounded below by best-case speed) -/

/-- C6: for every edge, the Advanced edge cost is at least
`length / max_speed_mps` (the spec-modelled `edgeCost`; the claim's lower
bound holds whenever the edge's length is nonnegative, which the data
model §3 guarantees). -/
theorem C6_edge_cost_lower_bound (e : EdgeAttrs) (h : 0 ≤ e.length.getD 0) :
    ((e.length.getD 0 / maxSpeedMps : ℚ) : Cost) ≤ advancedEdgeCost e := by
  unfold advancedEdgeCost
  rw [if_pos (edgeSpeedMps_pos e)]
  exact_mod_cast div_le_div_of_nonneg_left h (edgeSpeedMps_pos e) (edgeSpeedMps_le e)

/-- C6 witness: the bound instantiated at a concrete 5 m residential edge. -/
theorem C6_edge_cost_lower_bound_witness :
    0 ≤ (({ length := some 5 } : EdgeAttrs).length.getD 0) ∧
    (((({ length := some 5 } : EdgeAttrs).length.getD 0 / maxSpeedMps : ℚ)) : Cost) ≤
      advancedEdgeCost { length := some 5 } :=
  ⟨by norm_num, C6_edge_cost_lower_bound { length := some 5 } (by norm_num)⟩

/-! ## Claim C7 (node-not-found is reported before the search) -/

/-- C7: if the origin or the destination is not a node of the graph, the
search reports `NodeNotFound` (before the loop ever runs: the result is
produced by the membership pre-check for every graph and heuristic), and
that outcome is distinct from `NoPath`. -/
theorem C7_node_not_found (g : Graph) (hf : Nat → Cost) (o d : Nat)
    (h : o ∉ universeNodes g ∨ d ∉ universeNodes g) :
    nx_astar_path g hf o d = .nodeNotFound ∧
    (AResult.nodeNotFound ≠ AResult.noPath) := by
  refine ⟨?_, by simp⟩
  unfold nx_astar_path
  rw [if_neg]
  tauto

/-- C7 witness: querying the absent node 5 on the chain graph. -/
theorem C7_node_not_found_witness :
    (5 ∉ universeNodes gChain3 ∨ 2 ∉ universeNodes gChain3) ∧
    (nx_astar_path gChain3 (fun _ => 0) 5 2 = .nodeNotFound ∧
      (AResult.nodeNotFound ≠ AResult.noPath)) :=
  ⟨Or.inl (by decide), C7_node_not_found gChain3 (fun _ => 0) 5 2 (Or.inl (by decide))⟩

/-! ## Claim C8 (parallel edges: the first-inserted edge decides) -/

/-- C8: every attribute-reading operation (the Advanced heuristic, and the
per-edge distance and time of the route summary) depends only on the
first-inserted parallel edge: two graphs that agree on the node
coordinates and on the first-inserted edge between u and v (whatever
later parallel edges they carry) produce identical results. -/
theorem C8_first_inserted_edge_wins (g₁ g₂ : Graph) (u v : Nat)
    (hcu : coordOf g₁ u = coordOf g₂ u) (hcv : coordOf g₁ v = coordOf g₂ v)
    (he : (getEdgeData g₁ u v).head? = (getEdgeData g₂ u v).head?) :
    (∀ geo, advanced_heuristic geo g₁ u v = advanced_heuristic geo g₂ u v) ∧
    routeLengthM g₁ [u, v] = routeLengthM g₂ [u, v] ∧
    estTimeMin g₁ [u, v] = estTimeMin g₂ [u, v] := by
  refine ⟨?_, ?_, ?_⟩
  · intro geo
    unfold advanced_heuristic
    rw [hcu, hcv]
    cases h2 : coordOf g₂ u <;> cases h3 : coordOf g₂ v <;> try rfl
    cases h4 : getEdgeData g₁ u v <;> cases h5 : getEdgeData g₂ u v <;>
      rw [h4, h5] at he <;> simp_all
  · unfold routeLengthM
    cases h4 : getEdgeData g₁ u v <;> cases h5 : getEdgeData g₂ u v <;>
      rw [h4, h5] at he <;> simp_all [routeLengthM]
  · unfold estTimeMin
    cases h4 : getEdgeData g₁ u v <;> cases h5 : getEdgeData g₂ u v <;>
      rw [h4, h5] at he <;> simp_all [estTimeMin]

/-- C8 witness: appending a second (different) parallel edge after the
first-inserted one changes neither the heuristic nor the summary. -/
theorem C8_first_inserted_edge_wins_witness :
    (coordOf gTraffic 1 = coordOf gTraffic2 1 ∧
      coordOf gTraffic 2 = coordOf gTraffic2 2 ∧
      (getEdgeData gTraffic 1 2).head? = (getEdgeData gTraffic2 1 2).head?) ∧
    ((∀ geo, advanced_heuristic geo gTraffic 1 2 = advanced_heuristic geo gTraffic2 1 2) ∧
      routeLengthM gTraffic [1, 2] = routeLengthM gTraffic2 [1, 2] ∧
      estTimeMin gTraffic [1, 2] = estTimeMin gTraffic2 [1, 2]) :=
  ⟨⟨rfl, rfl, rfl⟩, C8_first_inserted_edge_wins gTraffic gTraffic2 1 2 rfl rfl rfl⟩

/-! ## Claim C10 (totality of the RouteFinder2 heuristic) -/

/-- C10: the RouteFinder2 heuristic is total: for every node pair it
returns a value that is nonnegative (so: a nonnegative finite rational or
`float("inf")`), and every internal failure (the `none` of the uncaught
computation, i.e. a Python exception) is mapped to `float("inf")` by the
`try/except` wrapper, so no exception propagates to the search. -/
theorem C10_heuristic_RF2_total (geo : Geo) (g : Graph) (u v : Nat)
    (hgeo : ∀ a b, 0 ≤ geo a b) :
    (0 : Cost) ≤ heuristic_RF2 geo g u v ∧
    (advanced_heuristic geo g u v = none → heuristic_RF2 geo g u v = ⊤) := by
  constructor
  · unfold heuristic_RF2 advanced_heuristic
    cases h1 : coordOf g u <;> cases h2 : coordOf g v <;> try exact le_top
    cases h3 : getEdgeData g u v with
    | nil => exact le_top
    | cons e rest =>
      dsimp only
      split_ifs with hs
      · exact_mod_cast div_nonneg (hgeo _ _) (le_of_lt hs)
      · exact le_top
  · intro h
    unfold heuristic_RF2
    rw [h]

/-- C10 witness: instantiated with the zero geodesic function on the
chain graph. -/
theorem C10_heuristic_RF2_total_witness :
    (∀ a b, 0 ≤ geoZero a b) ∧
    ((0 : Cost) ≤ heuristic_RF2 geoZero gChain3 1 2 ∧
      (advanced_heuristic geoZero gChain3 1 2 = none →
        heuristic_RF2 geoZero gChain3 1 2 = ⊤)) :=
  ⟨fun _ _ => le_refl 0, C10_heuristic_RF2_total geoZero gChain3 1 2 (fun _ _ => le_refl 0)⟩

end RouteFinder
